import Mathlib

/-!
Verification of the AI-Mediated Project Mutation Pipeline of `kody.py`.

The Python source is shallowly embedded: Python strings become `List Char`,
dictionaries (which preserve insertion order) become association lists,
machine integers become `Nat`/`Int`, and fallible operations return
`Option`/`Except`.  The embedding models ASCII text faithfully; Unicode
special-casing of `str.lower`/`str.strip` beyond ASCII is modelled by the
ASCII behaviour (all concrete inputs used below are ASCII).
-/

namespace Kody

/-- Characters treated as whitespace by Python's `str.split()`, `str.strip()`
and the regex class `\s` (ASCII part). -/
def isSpacePy (c : Char) : Bool :=
  c = ' ' || c = '\t' || c = '\n' || c = '\r' || c = '\x0b' || c = '\x0c'

/-- `s.strip()`: remove leading and trailing whitespace. -/
def pyStrip (s : List Char) : List Char :=
  ((s.dropWhile isSpacePy).reverse.dropWhile isSpacePy).reverse

/-- `s.lower()` character-wise (ASCII). -/
def pyLower (s : List Char) : List Char := s.map Char.toLower

/-- Helper for `pySplitWs`: accumulate the current word (reversed). -/
def pySplitWsAux : List Char → List Char → List (List Char)
  | [], acc => if acc = [] then [] else [acc.reverse]
  | c :: t, acc =>
    if isSpacePy c then
      if acc = [] then pySplitWsAux t [] else acc.reverse :: pySplitWsAux t []
    else pySplitWsAux t (c :: acc)

/-- `s.split()` with no argument: split on whitespace runs, no empty parts. -/
def pySplitWs (s : List Char) : List (List Char) := pySplitWsAux s []

/-- `s.find(c)`: index of the first occurrence, `none` for Python's `-1`. -/
def pyFind (c : Char) (s : List Char) : Option Nat := s.findIdx? (· = c)

/-- `s.rfind(c)`: index of the last occurrence, `none` for Python's `-1`. -/
def pyRfind (c : Char) (s : List Char) : Option Nat :=
  match s.reverse.findIdx? (· = c) with
  | some k => some (s.length - 1 - k)
  | none => none

/-- `s[a:b]` for `0 ≤ a ≤ b` (the only shape the embedded code uses with
both endpoints): characters from index `a` up to, not including, `b`. -/
def pySlice (s : List Char) (a b : Nat) : List Char := (s.drop a).take (b - a)

/-- `s[-h:]` for `h ≥ 0`.  Python's negative-index slicing has `s[-0:] = s`
(the index `-0` is just `0`), which this definition reproduces. -/
def pySliceLast (s : List Char) (h : Nat) : List Char :=
  if h = 0 then s else s.drop (s.length - h)

/-- `os.path.basename` (POSIX): the part after the last `/`. -/
def pyBasename (s : List Char) : List Char :=
  match pyRfind '/' s with
  | some i => s.drop (i + 1)
  | none => s

/-- `os.path.splitext(p)[1]` (POSIX): the extension including its dot.  The
dot used is the last dot after the last separator, and a basename made of
leading dots only (such as `.bashrc`) has no extension. -/
def pySplitextExt (p : List Char) : List Char :=
  let base := pyBasename p
  match pyRfind '.' base with
  | some d =>
    if (base.take d).any (fun c => c ≠ '.') then base.drop d else []
  | none => []

-- ------------------------------
-- Content Budgeter (`truncate_content`, kody.py lines 121-127)
-- ------------------------------

/-- `MAX_FILE_CONTENT_CHARS` (kody.py line 35). -/
def MAX_FILE_CONTENT_CHARS : Nat := 4000

/-- `MAX_FILES_IN_CONTEXT` (kody.py line 37). -/
def MAX_FILES_IN_CONTEXT : Nat := 10

/-- `MAX_CONTEXT_CHARS` (kody.py line 39). -/
def MAX_CONTEXT_CHARS : Nat := 25000

/-- The literal omission marker inserted by `truncate_content`. -/
def omissionMarker : List Char := "\n\n...[middle content omitted]...\n\n".toList

/-- `truncate_content(content, limit)` (kody.py lines 121-127):
if the content fits in `limit` return it unchanged, otherwise keep the
first `limit // 2` and the last `limit // 2` characters around the marker. -/
def truncate_content (content : List Char) (limit : Nat) : List Char :=
  if content.length ≤ limit then content
  else
    let half := limit / 2
    content.take half ++ omissionMarker ++ pySliceLast content half

theorem omissionMarker_length : omissionMarker.length = 34 := by decide

/-- C3 (counterexample): truncation is not idempotent for every limit.  At
`limit = 0` a non-empty content is rewritten to `marker ++ content` (Python's
`content[-0:]` is the whole string), and truncating again prepends the marker
a second time. -/
theorem truncate_content_not_idempotent_at_zero :
    truncate_content (truncate_content ['a'] 0) 0 ≠ truncate_content ['a'] 0 := by
  decide

/-- C3 (amended): truncation is idempotent for every limit `L ≥ 2` — in
particular for the limit `MAX_FILE_CONTENT_CHARS = 4000` actually used.  The
failure at `L ∈ {0, 1}` comes from `limit // 2 = 0` turning the tail slice
`content[-0:]` into the whole string. -/
theorem truncate_content_eq_of_long (x : List Char) (L : Nat)
    (hx : ¬ x.length ≤ L) :
    truncate_content x L = x.take (L / 2) ++ omissionMarker ++ pySliceLast x (L / 2) := by
  unfold truncate_content
  rw [if_neg hx]

theorem truncate_content_idempotent (x : List Char) (L : Nat) (hL : 2 ≤ L) :
    truncate_content (truncate_content x L) L = truncate_content x L := by
  by_cases hx : x.length ≤ L
  · simp [truncate_content, hx]
  · have hlen : L < x.length := Nat.lt_of_not_le hx
    have hh2 : L / 2 = L / 2 := rfl
    have hhalf : 1 ≤ L / 2 := by omega
    have hhle : L / 2 ≤ x.length := by omega
    have hslice : pySliceLast x (L / 2) = x.drop (x.length - L / 2) := by
      unfold pySliceLast
      rw [if_neg (by omega)]
    have htail_len : (x.drop (x.length - L / 2)).length = L / 2 := by
      rw [List.length_drop]; omega
    have hhead_len : (x.take (L / 2)).length = L / 2 := by
      rw [List.length_take]; omega
    have ht : truncate_content x L
        = x.take (L / 2) ++ omissionMarker ++ x.drop (x.length - L / 2) := by
      rw [truncate_content_eq_of_long x L hx, hslice]
    have htlen : (x.take (L / 2) ++ omissionMarker ++ x.drop (x.length - L / 2)).length
        = L / 2 + 34 + L / 2 := by
      simp only [List.length_append, hhead_len, htail_len, omissionMarker_length]
    have htlong : ¬ (x.take (L / 2) ++ omissionMarker ++ x.drop (x.length - L / 2)).length ≤ L := by
      rw [htlen]; omega
    rw [ht, truncate_content_eq_of_long _ L htlong]
    have htake : (x.take (L / 2) ++ omissionMarker ++ x.drop (x.length - L / 2)).take (L / 2)
        = x.take (L / 2) := by
      rw [List.append_assoc, List.take_append_of_le_length (by omega)]
      exact List.take_of_length_le (by omega)
    have hdrop : pySliceLast (x.take (L / 2) ++ omissionMarker ++ x.drop (x.length - L / 2)) (L / 2)
        = x.drop (x.length - L / 2) := by
      unfold pySliceLast
      rw [if_neg (by omega), htlen]
      have harr : L / 2 + 34 + L / 2 - L / 2 = (x.take (L / 2) ++ omissionMarker).length := by
        simp only [List.length_append, hhead_len, omissionMarker_length]
        omega
      rw [List.append_assoc, ← List.append_assoc, harr, List.drop_left]
    rw [htake, hdrop]

/-- C3 (witness for the amended theorem at a concrete input): the limit 4
satisfies the hypothesis and `"abcdef"` is idempotently truncated. -/
theorem truncate_content_idempotent_witness :
    2 ≤ 4 ∧ truncate_content (truncate_content "abcdef".toList 4) 4
      = truncate_content "abcdef".toList 4 :=
  ⟨by norm_num, truncate_content_idempotent "abcdef".toList 4 (by norm_num)⟩

-- ------------------------------
-- Relevance Selector (`filter_relevant_files`, kody.py lines 129-179)
-- ------------------------------

/-- A project-file table: relative path → content, in insertion order
(Python dictionaries preserve insertion order and have unique keys). -/
abbrev FileTable := List (List Char × List Char)

/-- `potential_exts` (kody.py lines 140-141): words of the lower-cased
instruction that start with `.` and have length `< 6`. -/
def potentialExtsOf (instruction : List Char) : List (List Char) :=
  (pySplitWs (pyLower instruction)).filter
    (fun w => w.head? = some '.' && w.length < 6)

/-- The relevance score of one non-target file (kody.py lines 149-161):
`+5` for an extension mentioned in the instruction, `+10` for the base name
occurring in the lower-cased instruction, `-min(5, len(content) // 5000)`. -/
def scoreOf (instruction filename content : List Char) : Int :=
  (if pyLower (pySplitextExt filename) ∈ potentialExtsOf instruction then (5 : Int) else 0)
  + (if pyLower (pyBasename filename) <:+: pyLower instruction then (10 : Int) else 0)
  - min 5 ((content.length : Int) / 5000)

/-- The initial `relevant_files` dictionary (kody.py lines 135-137): the
target file first, when given (non-empty: Python truthiness) and present. -/
def initialRelevant (projectFiles : FileTable) (targetFile : Option (List Char)) :
    FileTable :=
  match targetFile with
  | none => []
  | some t =>
    if t = [] then []
    else
      match projectFiles.lookup t with
      | some c => [(t, c)]
      | none => []

/-- Stable insertion for a descending sort by score: an element goes after
every element with a score `≥` its own, reproducing Python's stable
`sorted(..., key=lambda x: x[1], reverse=True)`. -/
def insertScoreDesc (x : List Char × List Char × Int) :
    List (List Char × List Char × Int) → List (List Char × List Char × Int)
  | [] => [x]
  | y :: ys => if x.2.2 ≤ y.2.2 then y :: insertScoreDesc x ys else x :: y :: ys

/-- Stable descending sort by score (`sorted_files`, kody.py line 166). -/
def sortByScoreDesc (l : List (List Char × List Char × Int)) :
    List (List Char × List Char × Int) :=
  l.foldl (fun acc x => insertScoreDesc x acc) []

/-- Total length of the values of a file table. -/
def charSum (l : FileTable) : Nat := (l.map (fun p => p.2.length)).sum

/-- The selection loop (kody.py lines 170-177): add files in order, stopping
once the running total exceeds `MAX_CONTEXT_CHARS`; the check happens before
each addition, so it is a strict pre-check, not a post-condition.  Content is
carried alongside each scored name, modelling `project_files[filename]`
(dictionary keys are unique, so the pairing is the lookup). -/
def addFiles : List (List Char × List Char × Int) → FileTable → Nat → FileTable
  | [], acc, _ => acc
  | (fn, c, _) :: rest, acc, total =>
    if MAX_CONTEXT_CHARS < total then acc
    else addFiles rest (acc ++ [(fn, truncate_content c MAX_FILE_CONTENT_CHARS)])
      (total + (truncate_content c MAX_FILE_CONTENT_CHARS).length)

/-- `filter_relevant_files(project_files, instruction, target_file)`
(kody.py lines 129-179). -/
def filter_relevant_files (projectFiles : FileTable) (instruction : List Char)
    (targetFile : Option (List Char)) : FileTable :=
  if projectFiles = [] then []
  else
    let relevant := initialRelevant projectFiles targetFile
    let fileScores :=
      (projectFiles.filter
        (fun p => ¬ (relevant.map Prod.fst).contains p.1)).map
        (fun p => (p.1, p.2, scoreOf instruction p.1 p.2))
    let sortedFiles := sortByScoreDesc fileScores
    let filesToAdd := min (MAX_FILES_IN_CONTEXT - relevant.length) sortedFiles.length
    addFiles (sortedFiles.take filesToAdd) relevant (charSum relevant)

theorem initialRelevant_length_le (pf : FileTable) (tf : Option (List Char)) :
    (initialRelevant pf tf).length ≤ 1 := by
  unfold initialRelevant
  cases tf with
  | none => simp
  | some t =>
    simp only []
    split
    · simp
    · split <;> simp

theorem addFiles_length_le (l : List (List Char × List Char × Int))
    (acc : FileTable) (total : Nat) :
    (addFiles l acc total).length ≤ acc.length + l.length := by
  induction l generalizing acc total with
  | nil => simp [addFiles]
  | cons x rest ih =>
    obtain ⟨fn, c, sc⟩ := x
    unfold addFiles
    by_cases h : MAX_CONTEXT_CHARS < total
    · rw [if_pos h]; simp
    · rw [if_neg h]
      have ih' := ih (acc ++ [(fn, truncate_content c MAX_FILE_CONTENT_CHARS)])
        (total + (truncate_content c MAX_FILE_CONTENT_CHARS).length)
      simp only [List.length_append, List.length_cons, List.length_nil] at ih' ⊢
      omega

theorem truncate_content_length_le (c : List Char) :
    (truncate_content c MAX_FILE_CONTENT_CHARS).length ≤ 4034 := by
  by_cases h : c.length ≤ MAX_FILE_CONTENT_CHARS
  · unfold truncate_content
    rw [if_pos h]
    unfold MAX_FILE_CONTENT_CHARS at h
    omega
  · rw [truncate_content_eq_of_long _ _ h]
    unfold MAX_FILE_CONTENT_CHARS at h ⊢
    have h2000 : (2000 : Nat) ≠ 0 := by norm_num
    simp only [List.length_append, omissionMarker_length]
    have ht : (c.take (4000 / 2)).length ≤ 2000 := by
      rw [List.length_take]; omega
    have hs : (pySliceLast c (4000 / 2)).length ≤ 2000 := by
      unfold pySliceLast
      norm_num
      omega
    omega

theorem charSum_append (a b : FileTable) : charSum (a ++ b) = charSum a + charSum b := by
  simp [charSum]

theorem addFiles_charSum_le (l : List (List Char × List Char × Int))
    (acc : FileTable) (total : Nat) (hacc : charSum acc = total) :
    charSum (addFiles l acc total) ≤ max total (MAX_CONTEXT_CHARS + 4034) := by
  induction l generalizing acc total with
  | nil => simp [addFiles, hacc]
  | cons x rest ih =>
    obtain ⟨fn, c, sc⟩ := x
    unfold addFiles
    by_cases h : MAX_CONTEXT_CHARS < total
    · rw [if_pos h, hacc]
      exact le_max_left _ _
    · rw [if_neg h]
      have hacc' : charSum (acc ++ [(fn, truncate_content c MAX_FILE_CONTENT_CHARS)])
          = total + (truncate_content c MAX_FILE_CONTENT_CHARS).length := by
        rw [charSum_append, hacc]
        simp [charSum]
      have := ih _ _ hacc'
      have htr := truncate_content_length_le c
      have hmax : max (total + (truncate_content c MAX_FILE_CONTENT_CHARS).length)
          (MAX_CONTEXT_CHARS + 4034) = MAX_CONTEXT_CHARS + 4034 := by
        apply max_eq_right
        unfold MAX_CONTEXT_CHARS at h ⊢
        omega
      rw [hmax] at this
      exact le_trans this (le_max_right _ _)

/-- C1 (amended): the Relevance Selector's output always has at most
`MAX_FILES_IN_CONTEXT = 10` entries; its total character count, however, is
only bounded by `max(initially included target characters, MAX_CONTEXT_CHARS)
+ 4034`, because the budget test `total_chars > MAX_CONTEXT_CHARS` runs
strictly before each addition (so the final total may overshoot by one
truncated file of at most 4034 characters) and the target file is counted
untruncated. -/
theorem filter_relevant_files_budget (pf : FileTable) (instr : List Char)
    (tf : Option (List Char)) :
    (filter_relevant_files pf instr tf).length ≤ MAX_FILES_IN_CONTEXT ∧
    charSum (filter_relevant_files pf instr tf)
      ≤ max (charSum (initialRelevant pf tf)) MAX_CONTEXT_CHARS + 4034 := by
  unfold filter_relevant_files
  by_cases hpf : pf = []
  · rw [if_pos hpf]
    constructor
    · simp [MAX_FILES_IN_CONTEXT]
    · simp [charSum]
  · rw [if_neg hpf]
    simp only []
    constructor
    · have h1 := addFiles_length_le
        ((sortByScoreDesc ((pf.filter
            (fun p => ¬ ((initialRelevant pf tf).map Prod.fst).contains p.1)).map
            (fun p => (p.1, p.2, scoreOf instr p.1 p.2)))).take
          (min (MAX_FILES_IN_CONTEXT - (initialRelevant pf tf).length)
            (sortByScoreDesc ((pf.filter
              (fun p => ¬ ((initialRelevant pf tf).map Prod.fst).contains p.1)).map
              (fun p => (p.1, p.2, scoreOf instr p.1 p.2)))).length))
        (initialRelevant pf tf) (charSum (initialRelevant pf tf))
      have h2 := initialRelevant_length_le pf tf
      have h3 : ∀ (l : List (List Char × List Char × Int)) (n : Nat),
          (l.take n).length ≤ n := by
        intro l n
        rw [List.length_take]
        exact min_le_left _ _
      refine le_trans h1 ?_
      have := h3 (sortByScoreDesc ((pf.filter
            (fun p => ¬ ((initialRelevant pf tf).map Prod.fst).contains p.1)).map
            (fun p => (p.1, p.2, scoreOf instr p.1 p.2))))
          (min (MAX_FILES_IN_CONTEXT - (initialRelevant pf tf).length)
            (sortByScoreDesc ((pf.filter
              (fun p => ¬ ((initialRelevant pf tf).map Prod.fst).contains p.1)).map
              (fun p => (p.1, p.2, scoreOf instr p.1 p.2)))).length)
      have hmin : min (MAX_FILES_IN_CONTEXT - (initialRelevant pf tf).length)
            (sortByScoreDesc ((pf.filter
              (fun p => ¬ ((initialRelevant pf tf).map Prod.fst).contains p.1)).map
              (fun p => (p.1, p.2, scoreOf instr p.1 p.2)))).length
          ≤ MAX_FILES_IN_CONTEXT - (initialRelevant pf tf).length := min_le_left _ _
      unfold MAX_FILES_IN_CONTEXT at *
      omega
    · have h4 := addFiles_charSum_le
        ((sortByScoreDesc ((pf.filter
            (fun p => ¬ ((initialRelevant pf tf).map Prod.fst).contains p.1)).map
            (fun p => (p.1, p.2, scoreOf instr p.1 p.2)))).take
          (min (MAX_FILES_IN_CONTEXT - (initialRelevant pf tf).length)
            (sortByScoreDesc ((pf.filter
              (fun p => ¬ ((initialRelevant pf tf).map Prod.fst).contains p.1)).map
              (fun p => (p.1, p.2, scoreOf instr p.1 p.2)))).length))
        (initialRelevant pf tf) (charSum (initialRelevant pf tf)) rfl
      have : max (charSum (initialRelevant pf tf)) (MAX_CONTEXT_CHARS + 4034)
          ≤ max (charSum (initialRelevant pf tf)) MAX_CONTEXT_CHARS + 4034 := by
        rcases max_cases (charSum (initialRelevant pf tf)) (MAX_CONTEXT_CHARS + 4034) with
          ⟨heq, _⟩ | ⟨heq, _⟩ <;> rw [heq] <;> omega
      exact le_trans h4 this

/-- The seven-file project used to refute the character-budget half of C1:
seven files of 4000 characters each, all with score 0 under the empty
instruction. -/
def c1Files : FileTable :=
  [("f1".toList, List.replicate 4000 'a'), ("f2".toList, List.replicate 4000 'a'),
   ("f3".toList, List.replicate 4000 'a'), ("f4".toList, List.replicate 4000 'a'),
   ("f5".toList, List.replicate 4000 'a'), ("f6".toList, List.replicate 4000 'a'),
   ("f7".toList, List.replicate 4000 'a')]

/-- C1 (counterexample): on seven 4000-character files, an empty instruction
and no target file, every selected value passed through `truncate_content`
unchanged, yet the total character count of the selection is 28000, which
exceeds `MAX_CONTEXT_CHARS = 25000`: the budget check `total_chars > 25000`
runs before each addition, so the seventh file is still added at a running
total of 24000. -/
theorem scoreOf_empty_instr (fn content : List Char)
    (hfn : pyBasename fn ≠ [])
    (hlen : content.length = 4000) : scoreOf [] fn content = 0 := by
  unfold scoreOf
  rw [hlen]
  simp [potentialExtsOf, pySplitWs, pySplitWsAux, pyLower, List.infix_nil, hfn]

theorem c1_counterexample :
    MAX_CONTEXT_CHARS < charSum (filter_relevant_files c1Files [] none) := by
  unfold filter_relevant_files c1Files
  generalize hrep : List.replicate 4000 'a' = r
  have hlen : r.length = 4000 := by rw [← hrep, List.length_replicate]
  have htr : truncate_content r MAX_FILE_CONTENT_CHARS = r := by
    unfold truncate_content
    rw [if_pos (by rw [hlen]; decide)]
  have e1 : scoreOf [] ['f', '1'] r = 0 := scoreOf_empty_instr _ _ (by decide) hlen
  have e2 : scoreOf [] ['f', '2'] r = 0 := scoreOf_empty_instr _ _ (by decide) hlen
  have e3 : scoreOf [] ['f', '3'] r = 0 := scoreOf_empty_instr _ _ (by decide) hlen
  have e4 : scoreOf [] ['f', '4'] r = 0 := scoreOf_empty_instr _ _ (by decide) hlen
  have e5 : scoreOf [] ['f', '5'] r = 0 := scoreOf_empty_instr _ _ (by decide) hlen
  have e6 : scoreOf [] ['f', '6'] r = 0 := scoreOf_empty_instr _ _ (by decide) hlen
  have e7 : scoreOf [] ['f', '7'] r = 0 := scoreOf_empty_instr _ _ (by decide) hlen
  rw [if_neg (by simp)]
  simp only [initialRelevant, List.map_nil, List.contains_nil, Bool.not_false,
    List.filter_cons, List.filter_nil, List.map_cons, List.map_nil,
    decide_not, decide_False, Bool.not_false, if_true,
    e1, e2, e3, e4, e5, e6, e7]
  norm_num [sortByScoreDesc, insertScoreDesc, MAX_FILES_IN_CONTEXT, charSum,
    addFiles, htr, hlen, MAX_CONTEXT_CHARS, e1, e2, e3, e4, e5, e6, e7]

/-- The score formula exactly as the specification sentence describes it
(C5): +5 if the file's lower-cased extension equals some token of the
lower-cased instruction that starts with `.` and has length < 6; +10 if the
lower-cased base name is a substring of the lower-cased instruction; minus
one point per 5000 characters of content, capped at 5. -/
def selectorScoreSpec (instruction filename content : List Char) : Int :=
  (if ∃ w ∈ pySplitWs (pyLower instruction),
      w.head? = some '.' ∧ w.length < 6 ∧ pyLower (pySplitextExt filename) = w
   then (5 : Int) else 0)
  + (if pyLower (pyBasename filename) <:+: pyLower instruction then (10 : Int) else 0)
  - min 5 ((content.length : Int) / 5000)

/-- C5: for every (non-target) file, the Relevance Selector's score is
exactly the formula stated by the specification. -/
theorem scoreOf_eq_spec (instruction filename content : List Char) :
    scoreOf instruction filename content
      = selectorScoreSpec instruction filename content := by
  unfold scoreOf selectorScoreSpec potentialExtsOf
  have h : (pyLower (pySplitextExt filename)
        ∈ (pySplitWs (pyLower instruction)).filter
            (fun w => w.head? = some '.' && w.length < 6))
      ↔ (∃ w ∈ pySplitWs (pyLower instruction),
          w.head? = some '.' ∧ w.length < 6 ∧ pyLower (pySplitextExt filename) = w) := by
    simp only [List.mem_filter, Bool.and_eq_true, decide_eq_true_eq]
    constructor
    · rintro ⟨hm, hp, hq⟩
      exact ⟨_, hm, hp, hq, rfl⟩
    · rintro ⟨w, hm, hp, hq, hw⟩
      rw [hw]
      exact ⟨hm, hp, hq⟩
  rw [if_congr h rfl rfl]

-- ------------------------------
-- JSON values, encoding (json.dumps) and decoding (json.loads)
-- ------------------------------

/-- Parsed JSON values as produced by `json.loads`, restricted to the forms
that occur in the edit-plan wire format: objects, arrays, strings, booleans
and null.  Numeric literals never occur in an `EditPlan`-shaped payload and
are not modelled.  An object is the ordered list of its key/value pairs
(Python deduplicates keys; every object compared below has distinct keys). -/
inductive JValue where
  | str : List Char → JValue
  | bool : Bool → JValue
  | null : JValue
  | arr : List JValue → JValue
  | obj : List (List Char × JValue) → JValue

/-- Lower-case hexadecimal digit, as `'\\u%04x' % n` produces. -/
def hexDigit (n : Nat) : Char :=
  if n < 10 then Char.ofNat (48 + n) else Char.ofNat (87 + n)

/-- The four hex digits of a `\\uXXXX` escape. -/
def hex4 (n : Nat) : List Char :=
  [hexDigit (n / 4096 % 16), hexDigit (n / 256 % 16),
   hexDigit (n / 16 % 16), hexDigit (n % 16)]

/-- Value of one hexadecimal digit (both cases), `none` otherwise. -/
def hexVal (c : Char) : Option Nat :=
  if '0' ≤ c ∧ c ≤ '9' then some (c.toNat - 48)
  else if 'a' ≤ c ∧ c ≤ 'f' then some (c.toNat - 87)
  else if 'A' ≤ c ∧ c ≤ 'F' then some (c.toNat - 55)
  else none

/-- Value of a four-digit hex run. -/
def hex4Val (h1 h2 h3 h4 : Char) : Option Nat :=
  match hexVal h1, hexVal h2, hexVal h3, hexVal h4 with
  | some a, some b, some c, some d => some (a * 4096 + b * 256 + c * 16 + d)
  | _, _, _, _ => none

/-- How `json.dumps` (default `ensure_ascii=True`) writes one character of a
string: printable ASCII other than `"` and `\\` is literal, the common
control characters use their short escapes, every other character becomes
`\\uXXXX` (a surrogate pair for characters beyond the basic plane). -/
def escapeChar (c : Char) : List Char :=
  if c = '"' then ['\\', '"']
  else if c = '\\' then ['\\', '\\']
  else if c = '\n' then ['\\', 'n']
  else if c = '\r' then ['\\', 'r']
  else if c = '\t' then ['\\', 't']
  else if c.toNat = 8 then ['\\', 'b']
  else if c.toNat = 12 then ['\\', 'f']
  else if c.toNat < 0x20 then '\\' :: 'u' :: hex4 c.toNat
  else if c.toNat ≤ 0x7e then [c]
  else if c.toNat < 0x10000 then '\\' :: 'u' :: hex4 c.toNat
  else
    '\\' :: 'u' :: hex4 (0xd800 + (c.toNat - 0x10000) / 0x400)
      ++ '\\' :: 'u' :: hex4 (0xdc00 + (c.toNat - 0x10000) % 0x400)

/-- `json.dumps` body of a string (without the surrounding quotes): this is
also exactly `json.dumps(content)[1:-1]` as used by `fix_json_fields`. -/
def escapeString (s : List Char) : List Char := (s.map escapeChar).flatten

/-- `json.dumps` of a string, quotes included. -/
def renderJString (s : List Char) : List Char := '"' :: escapeString s ++ ['"']

/-- Prefix a character onto the string being accumulated by `parseString`. -/
def consRes (c : Char) (o : Option (List Char × List Char)) :
    Option (List Char × List Char) :=
  o.map (fun p => (c :: p.1, p.2))

/-- The outcome of decoding one element of a JSON string body. -/
inductive StrStep where
  | done : List Char → StrStep
  | emit : Char → List Char → StrStep
  | fail : StrStep

/-- Decoding of a low-surrogate escape directly after a high surrogate of
value `n`, as CPython's scanner does when combining a pair. -/
def lowSurrogateStep (n : Nat) : List Char → StrStep
  | b1 :: b2 :: g1 :: g2 :: g3 :: g4 :: r3 =>
    if b1 = '\\' ∧ b2 = 'u' then
      match hex4Val g1 g2 g3 g4 with
      | some m =>
        if 0xdc00 ≤ m ∧ m ≤ 0xdfff then
          StrStep.emit (Char.ofNat (0x10000 + (n - 0xd800) * 0x400 + (m - 0xdc00))) r3
        else StrStep.fail
      | none => StrStep.fail
    else StrStep.fail
  | _ => StrStep.fail

/-- Decoding of a `\\uXXXX` escape, after the `\\u`.  (CPython would keep an
unpaired surrogate as a lone-surrogate character; such a character is not
representable in `Char` and never arises from `json.dumps` output, so it is
modelled as a failure.) -/
def uStep : List Char → StrStep
  | h1 :: h2 :: h3 :: h4 :: r2 =>
    match hex4Val h1 h2 h3 h4 with
    | none => StrStep.fail
    | some n =>
      if 0xd800 ≤ n ∧ n ≤ 0xdbff then lowSurrogateStep n r2
      else if 0xdc00 ≤ n ∧ n ≤ 0xdfff then StrStep.fail
      else StrStep.emit (Char.ofNat n) r2
  | _ => StrStep.fail

/-- Decoding of one backslash escape, after the backslash; unknown escapes
are rejected (strict mode). -/
def escStep : List Char → StrStep
  | [] => StrStep.fail
  | e :: r =>
    if e = '"' then StrStep.emit '"' r
    else if e = '\\' then StrStep.emit '\\' r
    else if e = '/' then StrStep.emit '/' r
    else if e = 'b' then StrStep.emit (Char.ofNat 8) r
    else if e = 'f' then StrStep.emit (Char.ofNat 12) r
    else if e = 'n' then StrStep.emit '\n' r
    else if e = 'r' then StrStep.emit '\r' r
    else if e = 't' then StrStep.emit '\t' r
    else if e = 'u' then uStep r
    else StrStep.fail

/-- Decoding of one element of a JSON string body: the closing quote ends
the string, a backslash starts an escape, raw control characters are
rejected (strict mode), anything else is literal. -/
def strStep : List Char → StrStep
  | [] => StrStep.fail
  | c :: rest =>
    if c = '"' then StrStep.done rest
    else if c = '\\' then escStep rest
    else if c.toNat < 0x20 then StrStep.fail
    else StrStep.emit c rest

/-- Fuelled driver of the string scanner; the fuel is kept above the length
of the remaining input, so the `fuel = 0` branch is never reached. -/
def parseStringF : Nat → List Char → Option (List Char × List Char)
  | 0, _ => none
  | fuel + 1, s =>
    match strStep s with
    | StrStep.done rest => some ([], rest)
    | StrStep.emit c rest => consRes c (parseStringF fuel rest)
    | StrStep.fail => none

/-- The strict `json.loads` string scanner, entered just after the opening
quote; returns the decoded characters and the input after the closing
quote. -/
def parseString (s : List Char) : Option (List Char × List Char) :=
  parseStringF (s.length + 1) s

/-- JSON inter-token whitespace (`json.decoder.WHITESPACE`). -/
def isWsJson (c : Char) : Bool := c = ' ' || c = '\t' || c = '\n' || c = '\r'

/-- Skip inter-token whitespace. -/
def skipWs (s : List Char) : List Char := s.dropWhile isWsJson

mutual

/-- One JSON value, fuel-indexed recursive descent modelling `json.loads`
(without numeric literals, which never occur in the edit-plan format). -/
def parseValue : Nat → List Char → Option (JValue × List Char)
  | 0, _ => none
  | fuel + 1, s =>
    match skipWs s with
    | '"' :: r => (parseString r).map (fun p => (JValue.str p.1, p.2))
    | '{' :: r =>
      (match skipWs r with
       | '}' :: r2 => some (JValue.obj [], r2)
       | _ => (parseMembers fuel r).map (fun p => (JValue.obj p.1, p.2)))
    | '[' :: r =>
      (match skipWs r with
       | ']' :: r2 => some (JValue.arr [], r2)
       | _ => (parseElems fuel r).map (fun p => (JValue.arr p.1, p.2)))
    | 't' :: 'r' :: 'u' :: 'e' :: r => some (JValue.bool true, r)
    | 'f' :: 'a' :: 'l' :: 's' :: 'e' :: r => some (JValue.bool false, r)
    | 'n' :: 'u' :: 'l' :: 'l' :: r => some (JValue.null, r)
    | _ => none

/-- The members of a non-empty JSON object, after the opening brace. -/
def parseMembers : Nat → List Char → Option (List (List Char × JValue) × List Char)
  | 0, _ => none
  | fuel + 1, s =>
    match skipWs s with
    | '"' :: r =>
      (match parseString r with
       | none => none
       | some (key, r2) =>
         match skipWs r2 with
         | ':' :: r3 =>
           (match parseValue fuel r3 with
            | none => none
            | some (v, r4) =>
              match skipWs r4 with
              | ',' :: r5 => (parseMembers fuel r5).map (fun p => ((key, v) :: p.1, p.2))
              | '}' :: r5 => some ([(key, v)], r5)
              | _ => none)
         | _ => none)
    | _ => none

/-- The elements of a non-empty JSON array, after the opening bracket. -/
def parseElems : Nat → List Char → Option (List JValue × List Char)
  | 0, _ => none
  | fuel + 1, s =>
    match parseValue fuel s with
    | none => none
    | some (v, r) =>
      match skipWs r with
      | ',' :: r2 => (parseElems fuel r2).map (fun p => (v :: p.1, p.2))
      | ']' :: r2 => some ([v], r2)
      | _ => none

end

/-- `json.loads`: parse one value and require only whitespace after it.  The
fuel `length + 1` always suffices: every two nested parser calls consume at
least one character of a successfully parsed input. -/
def jsonLoads (s : List Char) : Option JValue :=
  match parseValue (s.length + 1) s with
  | some (v, rest) => if skipWs rest = [] then some v else none
  | none => none

-- ------------------------------
-- Response Recoverer (`extract_json`, `fix_json_fields`, `try_parse_json`,
-- kody.py lines 302-342)
-- ------------------------------

/-- Fuelled scanner behind `removeAll`; the fuel bounds the number of scan
steps and is always at least the length of the remaining input, so the
`fuel = 0` branch is never taken on the initial call. -/
def removeAllAux (pat : List Char) : Nat → List Char → List Char
  | _, [] => []
  | 0, s => s
  | fuel + 1, c :: t =>
    if pat ≠ [] ∧ pat.isPrefixOf (c :: t) then
      removeAllAux pat fuel ((c :: t).drop pat.length)
    else c :: removeAllAux pat fuel t

/-- `re.sub(pat, "", s)` for a literal non-empty pattern: delete every
occurrence, scanning left to right and resuming after each match (the empty
replacement is not rescanned). -/
def removeAll (pat s : List Char) : List Char := removeAllAux pat s.length s

theorem removeAllAux_fuel_irrel (pat : List Char) :
    ∀ (fuel fuel' : Nat) (s : List Char), s.length ≤ fuel → s.length ≤ fuel' →
      removeAllAux pat fuel s = removeAllAux pat fuel' s := by
  intro fuel
  induction fuel with
  | zero =>
    intro fuel' s hs _
    have : s = [] := List.length_eq_zero.mp (Nat.le_zero.mp hs)
    subst this
    cases fuel' <;> rfl
  | succ n ih =>
    intro fuel' s hs hs'
    cases s with
    | nil => cases fuel' <;> rfl
    | cons c t =>
      cases fuel' with
      | zero => simp at hs'
      | succ m =>
        simp only [removeAllAux]
        by_cases h : pat ≠ [] ∧ pat.isPrefixOf (c :: t)
        · rw [if_pos h, if_pos h]
          have hpat : 1 ≤ pat.length := by
            cases pat with
            | nil => exact absurd rfl h.1
            | cons p ps => simp
          apply ih
          · simp only [List.length_drop, List.length_cons]
            simp only [List.length_cons] at hs
            omega
          · simp only [List.length_drop, List.length_cons]
            simp only [List.length_cons] at hs'
            omega
        · rw [if_neg h, if_neg h]
          have := ih m t (by simp at hs; omega) (by simp at hs'; omega)
          rw [this]

theorem removeAll_cons_skip (pat : List Char) (c : Char) (t : List Char)
    (h : pat ≠ [] ∧ pat.isPrefixOf (c :: t)) :
    removeAll pat (c :: t) = removeAll pat ((c :: t).drop pat.length) := by
  unfold removeAll
  simp only [List.length_cons, removeAllAux, if_pos h]
  apply removeAllAux_fuel_irrel
  · have hpat : 1 ≤ pat.length := by
      cases pat with
      | nil => exact absurd rfl h.1
      | cons p ps => simp
    simp only [List.length_drop, List.length_cons]
    omega
  · exact le_refl _

theorem removeAll_cons_keep (pat : List Char) (c : Char) (t : List Char)
    (h : ¬ (pat ≠ [] ∧ pat.isPrefixOf (c :: t))) :
    removeAll pat (c :: t) = c :: removeAll pat t := by
  unfold removeAll
  simp only [List.length_cons, removeAllAux, if_neg h]

/-- The fence-stripping passes of `extract_json` (kody.py lines 303-304):
first every occurrence of ```` ```json ````, then every occurrence of
```` ``` ````. -/
def stripFences (s : List Char) : List Char :=
  removeAll "```".toList (removeAll "```json".toList s)

/-- `extract_json(response)` (kody.py lines 302-309): strip fences, then
slice from the first `{` to the last `}` inclusive; `None` when either brace
is missing. -/
def extract_json (response : List Char) : Option (List Char) :=
  match pyFind '{' (stripFences response), pyRfind '}' (stripFences response) with
  | some s, some e => some (pySlice (stripFences response) s (e + 1))
  | _, _ => none

/-- One candidate match of the pattern `("<key>":\s*")(.*?)(")` (DOTALL) at
the head of `s`: the literal `"key":`, then a greedy whitespace run, then the
opening quote, then the shortest run of characters up to a closing quote.
Returns the matched prefix through the opening quote, the captured content,
and the remainder after the closing quote (with a length certificate for
termination of the scan). -/
def matchKeyAt (key : List Char) (s : List Char) :
    Option (List Char × List Char × { r : List Char // r.length < s.length }) :=
  let pat := '"' :: key ++ ['"', ':']
  if hp : pat.isPrefixOf s then
    let s1 := s.drop pat.length
    let ws := s1.takeWhile isSpacePy
    match hq : s1.dropWhile isSpacePy with
    | '"' :: s3 =>
      match hi : s3.findIdx? (· = '"') with
      | some i =>
        some (pat ++ ws ++ ['"'], s3.take i,
          ⟨s3.drop (i + 1), by
            have h1 : pat.length ≤ s.length :=
              (List.isPrefixOf_iff_prefix.mp hp).length_le
            have h2 : s1.length = s.length - pat.length := List.length_drop _ _
            have h3 : (s1.dropWhile isSpacePy).length ≤ s1.length :=
              (List.dropWhile_sublist _).length_le
            have h4 : s3.length + 1 = (s1.dropWhile isSpacePy).length := by
              rw [hq]; simp
            have h5 : (s3.drop (i + 1)).length = s3.length - (i + 1) :=
              List.length_drop _ _
            have h6 : 1 ≤ pat.length := by simp [pat]
            omega⟩)
      | none => none
    | _ => none
  else none

/-- Fuelled scanner behind `fixKey`; as for `removeAllAux`, the fuel is
always at least the length of the remaining input. -/
def fixKeyAux (key : List Char) : Nat → List Char → List Char
  | _, [] => []
  | 0, s => s
  | fuel + 1, c :: t =>
    match matchKeyAt key (c :: t) with
    | some (pre, content, rest) =>
      pre ++ escapeString content ++ '"' :: fixKeyAux key fuel rest.1
    | none => c :: fixKeyAux key fuel t

/-- One `re.sub` pass of the repair pattern for one key over the whole
string: scan left to right, replacing each captured content span by its
re-encoding `json.dumps(content)[1:-1]`, resuming after the match. -/
def fixKey (key s : List Char) : List Char := fixKeyAux key s.length s

theorem fixKeyAux_fuel_irrel (key : List Char) :
    ∀ (fuel fuel' : Nat) (s : List Char), s.length ≤ fuel → s.length ≤ fuel' →
      fixKeyAux key fuel s = fixKeyAux key fuel' s := by
  intro fuel
  induction fuel with
  | zero =>
    intro fuel' s hs _
    have : s = [] := List.length_eq_zero.mp (Nat.le_zero.mp hs)
    subst this
    cases fuel' <;> rfl
  | succ n ih =>
    intro fuel' s hs hs'
    cases s with
    | nil => cases fuel' <;> rfl
    | cons c t =>
      cases fuel' with
      | zero => simp at hs'
      | succ m =>
        simp only [List.length_cons] at hs hs'
        cases hm : matchKeyAt key (c :: t) with
        | none =>
          simp only [fixKeyAux, hm]
          rw [ih m t (by omega) (by omega)]
        | some x =>
          obtain ⟨pre, content, rest⟩ := x
          simp only [fixKeyAux, hm]
          have hr := rest.2
          simp only [List.length_cons] at hr
          rw [ih m rest.1 (by omega) (by omega)]

theorem fixKey_cons_match (key : List Char) (c : Char) (t : List Char)
    (pre content : List Char) (rest : { r : List Char // r.length < (c :: t).length })
    (h : matchKeyAt key (c :: t) = some (pre, content, rest)) :
    fixKey key (c :: t) = pre ++ escapeString content ++ '"' :: fixKey key rest.1 := by
  unfold fixKey
  simp only [List.length_cons, fixKeyAux, h]
  have hr := rest.2
  simp only [List.length_cons] at hr
  rw [fixKeyAux_fuel_irrel key t.length rest.1.length rest.1 (by omega) (le_refl _)]

theorem fixKey_cons_nomatch (key : List Char) (c : Char) (t : List Char)
    (h : matchKeyAt key (c :: t) = none) :
    fixKey key (c :: t) = c :: fixKey key t := by
  unfold fixKey
  simp only [List.length_cons, fixKeyAux, h]

/-- One iteration of `fix_json_fields` (kody.py lines 317-326): the
`new_content` pass followed by the `content` pass. -/
def fixFieldsOnce (s : List Char) : List Char :=
  fixKey "content".toList (fixKey "new_content".toList s)

/-- The bounded fixed-point loop of `fix_json_fields`: stop when an
iteration leaves the string unchanged, or after the iteration cap. -/
def fixLoop : Nat → List Char → Option (List Char) → List Char
  | 0, s, _ => s
  | n + 1, s, prev =>
    if prev = some s then s else fixLoop n (fixFieldsOnce s) (some s)

/-- `fix_json_fields(json_str)` with the default keys
`["new_content", "content"]` and the default iteration cap 5
(kody.py lines 311-327). -/
def fix_json_fields (s : List Char) : List Char := fixLoop 5 s none

/-- The failure modes of `try_parse_json`: the `ValueError("No JSON found in
response")` for a missing/empty candidate, and the uncaught `json.loads`
error after the repair pass. -/
inductive ParseErr where
  | noJsonFound : ParseErr
  | decodeError : ParseErr
deriving DecidableEq

/-- `try_parse_json(response)` (kody.py lines 329-342).  The optional
lenient parser `demjson` is an optional dependency that is absent in the
modelled configuration (module-level `try/except ImportError` sets it to
`None`), so recovery attempts strict decoding and, on failure, the repair
pass followed by strict decoding. -/
def try_parse_json (response : List Char) : Except ParseErr JValue :=
  match extract_json response with
  | none => Except.error ParseErr.noJsonFound
  | some js =>
    if js = [] then Except.error ParseErr.noJsonFound
    else
      match jsonLoads js with
      | some v => Except.ok v
      | none =>
        match jsonLoads (fix_json_fields js) with
        | some v => Except.ok v
        | none => Except.error ParseErr.decodeError

-- ------------------------------
-- EditPlan wire format (spec section 3 and kody.py lines 206-217, 468-469)
-- ------------------------------

/-- A modification entry: `{"filename": ..., "new_content": ...}`. -/
structure ModificationEntry where
  filename : List Char
  new_content : List Char

/-- A creation entry: `{"filename": ..., "content": ..., "is_directory": ...}`. -/
structure CreationEntry where
  filename : List Char
  content : List Char
  is_directory : Bool

/-- An edit plan: the two ordered entry sequences. -/
structure EditPlan where
  modifications : List ModificationEntry
  creations : List CreationEntry

/-- The elements of a JSON array after the first one, as `json.dumps`
writes them: `", "` before each element, then the closing bracket. -/
def renderArrTail (f : α → List Char) : List α → List Char
  | [] => [']']
  | x :: xs => ',' :: ' ' :: f x ++ renderArrTail f xs

/-- A JSON array as `json.dumps` writes it (default separators). -/
def renderArr (f : α → List Char) : List α → List Char
  | [] => ['[', ']']
  | x :: xs => '[' :: f x ++ renderArrTail f xs

/-- `json.dumps` of one modification entry. -/
def renderModEntry (e : ModificationEntry) : List Char :=
  '{' :: renderJString "filename".toList ++ ':' :: ' ' :: renderJString e.filename
    ++ ',' :: ' ' :: renderJString "new_content".toList ++ ':' :: ' '
    :: renderJString e.new_content ++ ['}']

/-- `json.dumps` of a boolean. -/
def renderBool (b : Bool) : List Char :=
  if b then "true".toList else "false".toList

/-- `json.dumps` of one creation entry. -/
def renderCreEntry (e : CreationEntry) : List Char :=
  '{' :: renderJString "filename".toList ++ ':' :: ' ' :: renderJString e.filename
    ++ ',' :: ' ' :: renderJString "content".toList ++ ':' :: ' '
    :: renderJString e.content
    ++ ',' :: ' ' :: renderJString "is_directory".toList ++ ':' :: ' '
    :: renderBool e.is_directory ++ ['}']

/-- `json.dumps` of a whole edit plan — the standard JSON encoder with its
default separators applied to
`{"modifications": [...], "creations": [...]}`. -/
def renderEditPlan (p : EditPlan) : List Char :=
  '{' :: renderJString "modifications".toList ++ ':' :: ' '
    :: renderArr renderModEntry p.modifications
    ++ ',' :: ' ' :: renderJString "creations".toList ++ ':' :: ' '
    :: renderArr renderCreEntry p.creations ++ ['}']

/-- The `JValue` that `json.loads` produces for one modification entry. -/
def modEntryJ (e : ModificationEntry) : JValue :=
  JValue.obj [("filename".toList, JValue.str e.filename),
              ("new_content".toList, JValue.str e.new_content)]

/-- The `JValue` that `json.loads` produces for one creation entry. -/
def creEntryJ (e : CreationEntry) : JValue :=
  JValue.obj [("filename".toList, JValue.str e.filename),
              ("content".toList, JValue.str e.content),
              ("is_directory".toList, JValue.bool e.is_directory)]

/-- The `JValue` that `json.loads` produces for a whole edit plan. -/
def editPlanJ (p : EditPlan) : JValue :=
  JValue.obj [("modifications".toList, JValue.arr (p.modifications.map modEntryJ)),
              ("creations".toList, JValue.arr (p.creations.map creEntryJ))]

/-- Wrapping a serialized plan in Markdown code fences with surrounding
prose, as the round-trip claim describes. -/
def wrapReply (prose1 : List Char) (p : EditPlan) (prose2 : List Char) : List Char :=
  prose1 ++ "```json\n".toList ++ renderEditPlan p ++ "\n```\n".toList ++ prose2

-- ------------------------------
-- Round-trip of the string scanner over `json.dumps` escaping
-- ------------------------------

theorem hexVal_hexDigit (d : Nat) (h : d < 16) : hexVal (hexDigit d) = some d := by
  interval_cases d <;> decide

theorem hex4Val_hex4 (n : Nat) (h : n < 0x10000) :
    hex4Val (hexDigit (n / 4096 % 16)) (hexDigit (n / 256 % 16))
      (hexDigit (n / 16 % 16)) (hexDigit (n % 16)) = some n := by
  unfold hex4Val
  rw [hexVal_hexDigit _ (by omega), hexVal_hexDigit _ (by omega),
    hexVal_hexDigit _ (by omega), hexVal_hexDigit _ (by omega)]
  refine congrArg some ?_
  omega

theorem lowSurrogateStep_emit_len (n : Nat) (r : List Char) (c : Char)
    (rest : List Char) (h : lowSurrogateStep n r = StrStep.emit c rest) :
    rest.length + 6 = r.length := by
  unfold lowSurrogateStep at h
  split at h
  · split at h
    · split at h
      · split at h
        · simp only [StrStep.emit.injEq] at h
          obtain ⟨_, h2⟩ := h
          subst h2
          simp
        · exact absurd h (by simp)
      · exact absurd h (by simp)
    · exact absurd h (by simp)
  · exact absurd h (by simp)

theorem uStep_emit_len (r : List Char) (c : Char) (rest : List Char)
    (h : uStep r = StrStep.emit c rest) : rest.length + 4 ≤ r.length := by
  unfold uStep at h
  split at h
  case h_1 h1 h2 h3 h4 r2 =>
    split at h
    · exact absurd h (by simp)
    · split at h
      · have := lowSurrogateStep_emit_len _ _ _ _ h
        simp only [List.length_cons]
        omega
      · split at h
        · exact absurd h (by simp)
        · simp only [StrStep.emit.injEq] at h
          obtain ⟨_, h2⟩ := h
          subst h2
          simp only [List.length_cons]
          omega
  case h_2 => exact absurd h (by simp)

theorem escStep_emit_len (r : List Char) (c : Char) (rest : List Char)
    (h : escStep r = StrStep.emit c rest) : rest.length < r.length := by
  unfold escStep at h
  cases r with
  | nil => exact absurd h (by simp)
  | cons e t =>
    simp only [] at h
    by_cases h1 : e = '"'
    · rw [if_pos h1] at h
      simp only [StrStep.emit.injEq] at h
      obtain ⟨_, h2⟩ := h
      subst h2
      simp
    rw [if_neg h1] at h
    by_cases h2 : e = '\\'
    · rw [if_pos h2] at h
      simp only [StrStep.emit.injEq] at h
      obtain ⟨_, hr⟩ := h
      subst hr
      simp
    rw [if_neg h2] at h
    by_cases h3 : e = '/'
    · rw [if_pos h3] at h
      simp only [StrStep.emit.injEq] at h
      obtain ⟨_, hr⟩ := h
      subst hr
      simp
    rw [if_neg h3] at h
    by_cases h4 : e = 'b'
    · rw [if_pos h4] at h
      simp only [StrStep.emit.injEq] at h
      obtain ⟨_, hr⟩ := h
      subst hr
      simp
    rw [if_neg h4] at h
    by_cases h5 : e = 'f'
    · rw [if_pos h5] at h
      simp only [StrStep.emit.injEq] at h
      obtain ⟨_, hr⟩ := h
      subst hr
      simp
    rw [if_neg h5] at h
    by_cases h6 : e = 'n'
    · rw [if_pos h6] at h
      simp only [StrStep.emit.injEq] at h
      obtain ⟨_, hr⟩ := h
      subst hr
      simp
    rw [if_neg h6] at h
    by_cases h7 : e = 'r'
    · rw [if_pos h7] at h
      simp only [StrStep.emit.injEq] at h
      obtain ⟨_, hr⟩ := h
      subst hr
      simp
    rw [if_neg h7] at h
    by_cases h8 : e = 't'
    · rw [if_pos h8] at h
      simp only [StrStep.emit.injEq] at h
      obtain ⟨_, hr⟩ := h
      subst hr
      simp
    rw [if_neg h8] at h
    by_cases h9 : e = 'u'
    · rw [if_pos h9] at h
      have := uStep_emit_len _ _ _ h
      simp only [List.length_cons]
      omega
    · rw [if_neg h9] at h
      exact absurd h (by simp)

theorem strStep_emit_len (s : List Char) (c : Char) (rest : List Char)
    (h : strStep s = StrStep.emit c rest) : rest.length < s.length := by
  unfold strStep at h
  cases s with
  | nil => exact absurd h (by simp)
  | cons x t =>
    simp only [] at h
    by_cases h1 : x = '"'
    · rw [if_pos h1] at h
      exact absurd h (by simp)
    rw [if_neg h1] at h
    by_cases h2 : x = '\\'
    · rw [if_pos h2] at h
      have := escStep_emit_len _ _ _ h
      simp only [List.length_cons]
      omega
    rw [if_neg h2] at h
    by_cases h3 : x.toNat < 0x20
    · rw [if_pos h3] at h
      exact absurd h (by simp)
    · rw [if_neg h3] at h
      simp only [StrStep.emit.injEq] at h
      obtain ⟨_, hr⟩ := h
      subst hr
      simp

theorem parseStringF_succ (fuel : Nat) (s : List Char) :
    parseStringF (fuel + 1) s
      = match strStep s with
        | StrStep.done rest => some ([], rest)
        | StrStep.emit c rest => consRes c (parseStringF fuel rest)
        | StrStep.fail => none := rfl

theorem parseStringF_fuel_irrel :
    ∀ (fuel fuel' : Nat) (s : List Char), s.length < fuel → s.length < fuel' →
      parseStringF fuel s = parseStringF fuel' s := by
  intro fuel
  induction fuel with
  | zero =>
    intro fuel' s hs _
    omega
  | succ n ih =>
    intro fuel' s hs hs'
    cases fuel' with
    | zero => omega
    | succ m =>
      rw [parseStringF_succ, parseStringF_succ]
      cases hstep : strStep s with
      | done rest => rfl
      | fail => rfl
      | emit c rest =>
        have hlt := strStep_emit_len s c rest hstep
        show consRes c (parseStringF n rest) = consRes c (parseStringF m rest)
        rw [ih m rest (by omega) (by omega)]

theorem parseString_done (s rest : List Char) (h : strStep s = StrStep.done rest) :
    parseString s = some ([], rest) := by
  unfold parseString
  rw [parseStringF_succ, h]

theorem parseString_fail (s : List Char) (h : strStep s = StrStep.fail) :
    parseString s = none := by
  unfold parseString
  rw [parseStringF_succ, h]

theorem parseString_emit (s : List Char) (c : Char) (rest : List Char)
    (h : strStep s = StrStep.emit c rest) :
    parseString s = consRes c (parseString rest) := by
  unfold parseString
  rw [parseStringF_succ, h]
  have hlt := strStep_emit_len s c rest h
  show consRes c (parseStringF s.length rest) = consRes c (parseStringF (rest.length + 1) rest)
  rw [parseStringF_fuel_irrel s.length (rest.length + 1) rest (by omega) (by omega)]

-- ------------------------------
-- C6 and C10: the no-JSON failure paths of recovery
-- ------------------------------

/-- C6: when the fence-stripped reply lacks `{` or lacks `}`, recovery fails
with the no-JSON-found error (the `ValueError("No JSON found in response")`
raised for a `None` candidate), rather than returning a plan or failing
some other way. -/
theorem try_parse_json_missing_brace (s : List Char)
    (h : '{' ∉ stripFences s ∨ '}' ∉ stripFences s) :
    try_parse_json s = Except.error ParseErr.noJsonFound := by
  unfold try_parse_json extract_json
  rcases h with h | h
  · have hf : pyFind '{' (stripFences s) = none := by
      unfold pyFind
      rw [List.findIdx?_eq_none_iff]
      intro x hx
      rw [decide_eq_false_iff_not]
      intro hxe
      exact h (hxe ▸ hx)
    rw [hf]
  · have hf : pyRfind '}' (stripFences s) = none := by
      unfold pyRfind
      have hnone : (stripFences s).reverse.findIdx? (· = '}') = none := by
        rw [List.findIdx?_eq_none_iff]
        intro x hx
        rw [decide_eq_false_iff_not]
        intro hxe
        exact h (List.mem_reverse.mp (hxe ▸ hx))
      rw [hnone]
    rw [hf]
    cases pyFind '{' (stripFences s) <;> rfl

/-- C6 (witness): the braceless reply `"hello"` satisfies the hypothesis and
fails with the no-JSON-found error. -/
theorem try_parse_json_missing_brace_witness :
    ('{' ∉ stripFences "hello".toList ∨ '}' ∉ stripFences "hello".toList) ∧
    try_parse_json "hello".toList = Except.error ParseErr.noJsonFound :=
  ⟨Or.inl (by decide), try_parse_json_missing_brace _ (Or.inl (by decide))⟩

/-- C10: when the first `{` of the fence-stripped reply comes after the last
`}`, the sliced candidate is the empty string, which the falsiness test
`if not json_str` maps to the very same no-JSON-found error instead of an
attempt to parse a degenerate candidate. -/
theorem try_parse_json_degenerate_slice (s : List Char) (i j : Nat)
    (hi : pyFind '{' (stripFences s) = some i)
    (hj : pyRfind '}' (stripFences s) = some j)
    (hlt : j < i) :
    try_parse_json s = Except.error ParseErr.noJsonFound := by
  unfold try_parse_json extract_json
  rw [hi, hj]
  have hempty : pySlice (stripFences s) i (j + 1) = [] := by
    unfold pySlice
    have : j + 1 - i = 0 := by omega
    rw [this, List.take_zero]
  simp only [hempty]
  rfl

/-- C10 (witness): in `"}x{"` the only `{` (index 2) comes after the only
`}` (index 0), and recovery fails with the no-JSON-found error. -/
theorem try_parse_json_degenerate_slice_witness :
    pyFind '{' (stripFences "\x7dx\x7b".toList) = some 2 ∧
    pyRfind '}' (stripFences "\x7dx\x7b".toList) = some 0 ∧ 0 < 2 ∧
    try_parse_json "\x7dx\x7b".toList = Except.error ParseErr.noJsonFound :=
  ⟨by decide, by decide, by decide,
    try_parse_json_degenerate_slice _ 2 0 (by decide) (by decide) (by decide)⟩

-- ------------------------------
-- C4: the field-repair pass on already-valid JSON
-- ------------------------------

/-- A character that `json.dumps` emits unchanged inside a string: printable
ASCII other than the backslash (the quote is excluded separately where it
matters). -/
def plainChar (c : Char) : Prop := 0x20 ≤ c.toNat ∧ c.toNat ≤ 0x7e ∧ c ≠ '\\'

instance (c : Char) : Decidable (plainChar c) := by
  unfold plainChar
  infer_instance

theorem escapeChar_plain (c : Char) (h : plainChar c) (hq : c ≠ '"') :
    escapeChar c = [c] := by
  obtain ⟨h1, h2, h3⟩ := h
  unfold escapeChar
  rw [if_neg hq, if_neg h3]
  rw [if_neg (by intro he; subst he; simp at h1)]
  rw [if_neg (by intro he; subst he; simp at h1)]
  rw [if_neg (by intro he; subst he; simp at h1)]
  rw [if_neg (by omega), if_neg (by omega), if_neg (by omega), if_pos h2]

theorem escapeString_plain (s : List Char) (h : ∀ c ∈ s, plainChar c ∧ c ≠ '"') :
    escapeString s = s := by
  induction s with
  | nil => rfl
  | cons c t ih =>
    unfold escapeString at ih ⊢
    simp only [List.map_cons, List.flatten_cons]
    rw [escapeChar_plain c (h c (by simp)).1 (h c (by simp)).2,
      ih (fun x hx => h x (by simp [hx]))]
    rfl

/-- Decomposition of a successful head match of the repair pattern:
the input is the matched prefix, the captured content, the closing quote and
the rest, and the captured content contains no quote. -/
theorem matchKeyAt_some (key s : List Char) (pre content : List Char)
    (rest : { r : List Char // r.length < s.length })
    (h : matchKeyAt key s = some (pre, content, rest)) :
    s = pre ++ content ++ '"' :: rest.1 ∧ ∀ x ∈ content, x ≠ '"' := by
  unfold matchKeyAt at h
  simp only [] at h
  split at h
  case isFalse => exact absurd h (by simp)
  case isTrue hp =>
    split at h
    case h_2 => exact absurd h (by simp)
    case h_1 s3 hq =>
      split at h
      case h_2 => exact absurd h (by simp)
      case h_1 i hi =>
        simp only [Option.some.injEq, Prod.mk.injEq] at h
        obtain ⟨hpre, hcontent, hrest⟩ := h
        have hrest1 : rest.1 = s3.drop (i + 1) := by rw [← hrest]
        rw [List.findIdx?_eq_some_iff_getElem] at hi
        obtain ⟨hilen, hpi, hbefore⟩ := hi
        have hs3i : s3[i] = '"' := by simpa using hpi
        constructor
        · have hdec1 : ('"' :: key ++ ['"', ':'])
              ++ s.drop ('"' :: key ++ ['"', ':']).length = s := by
          -- the pattern is a prefix of s
            conv_rhs => rw [← List.take_append_drop ('"' :: key ++ ['"', ':']).length s]
            congr 1
            exact (List.prefix_iff_eq_take.mp (List.isPrefixOf_iff_prefix.mp hp))
          have hdec2 : (s.drop ('"' :: key ++ ['"', ':']).length).takeWhile isSpacePy
              ++ '"' :: s3 = s.drop ('"' :: key ++ ['"', ':']).length := by
            conv_rhs => rw [← List.takeWhile_append_dropWhile isSpacePy
              (s.drop ('"' :: key ++ ['"', ':']).length)]
            rw [hq]
          have hdec3 : s3.take i ++ '"' :: s3.drop (i + 1) = s3 := by
            conv_rhs => rw [← List.take_append_drop i s3]
            congr 1
            rw [List.drop_eq_getElem_cons hilen, hs3i]
          rw [← hpre, ← hcontent, hrest1]
          conv_lhs => rw [← hdec1]
          conv_lhs => rw [← hdec2]
          conv_lhs => rw [← hdec3]
          simp
        · intro x hx
          rw [← hcontent] at hx
          rw [List.mem_take_iff_getElem] at hx
          obtain ⟨j, hj, hxj⟩ := hx
          have hjlt : j < i := by omega
          have := hbefore j hjlt
          simp only [decide_eq_true_eq] at this
          intro hxe
          apply this
          rw [← hxj] at hxe
          simpa using hxe

theorem fixKey_id_plain_bounded (key : List Char) :
    ∀ (n : Nat) (s : List Char), s.length ≤ n → (∀ c ∈ s, plainChar c) →
      fixKey key s = s := by
  intro n
  induction n with
  | zero =>
    intro s hs _
    have : s = [] := List.length_eq_zero.mp (Nat.le_zero.mp hs)
    subst this
    rfl
  | succ n ih =>
    intro s hs hplain
    cases s with
    | nil => rfl
    | cons c t =>
      cases hm : matchKeyAt key (c :: t) with
      | none =>
        rw [fixKey_cons_nomatch key c t hm]
        rw [ih t (by simp only [List.length_cons] at hs; omega)
          (fun x hx => hplain x (by simp [hx]))]
      | some x =>
        obtain ⟨pre, content, rest⟩ := x
        rw [fixKey_cons_match key c t pre content rest hm]
        obtain ⟨hdecomp, hnoq⟩ := matchKeyAt_some key (c :: t) pre content rest hm
        have hcontent_plain : ∀ x ∈ content, plainChar x ∧ x ≠ '"' := by
          intro x hx
          refine ⟨hplain x ?_, hnoq x hx⟩
          rw [hdecomp]
          simp [hx]
        have hrest_plain : ∀ x ∈ rest.1, plainChar x := by
          intro x hx
          apply hplain x
          rw [hdecomp]
          simp [hx]
        have hrlen : rest.1.length ≤ n := by
          have := rest.2
          simp only [List.length_cons] at this hs
          omega
        rw [escapeString_plain content hcontent_plain]
        rw [ih rest.1 hrlen hrest_plain]
        exact hdecomp.symm

theorem fixKey_id_plain (key s : List Char) (hplain : ∀ c ∈ s, plainChar c) :
    fixKey key s = s :=
  fixKey_id_plain_bounded key s.length s (le_refl _) hplain

/-- C4 (counterexample): the input `'{"content": "a\nb"}'` (with a JSON
escape `\n` inside the string value) is valid JSON, yet the field-repair
pass rewrites it — the non-greedy regex recapture re-escapes the backslash
on every iteration, so already-valid JSON with any escape in a content field
is corrupted rather than left unchanged. -/
theorem fix_json_fields_not_id :
    (jsonLoads ('{' :: "\"content\": \"a\\nb\"".toList ++ ['}'])).isSome ∧
    fix_json_fields ('{' :: "\"content\": \"a\\nb\"".toList ++ ['}'])
      ≠ '{' :: "\"content\": \"a\\nb\"".toList ++ ['}'] := by
  constructor
  · decide
  · decide

/-- C4 (amended): the field-repair pass does leave an already-valid JSON
string unchanged provided the string consists of printable-ASCII characters
and contains no backslash (equivalently: no content field needs any
escaping; the counterexample shows one escaped character suffices to break
the fixed point). -/
theorem fix_json_fields_id_plain (s : List Char)
    (hvalid : (jsonLoads s).isSome = true)
    (hplain : ∀ c ∈ s, plainChar c) :
    fix_json_fields s = s := by
  have honce : fixFieldsOnce s = s := by
    unfold fixFieldsOnce
    rw [fixKey_id_plain _ s hplain, fixKey_id_plain _ s hplain]
  unfold fix_json_fields fixLoop
  rw [if_neg (by simp)]
  rw [honce]
  unfold fixLoop
  rw [if_pos rfl]

/-- C4 (witness): `'{"content": "ab"}'` is valid, printable-ASCII and
backslash-free, and the repair pass leaves it unchanged. -/
theorem fix_json_fields_id_plain_witness :
    (jsonLoads ('{' :: "\"content\": \"ab\"".toList ++ ['}'])).isSome = true ∧
    (∀ c ∈ '{' :: "\"content\": \"ab\"".toList ++ ['}'], plainChar c) ∧
    fix_json_fields ('{' :: "\"content\": \"ab\"".toList ++ ['}'])
      = '{' :: "\"content\": \"ab\"".toList ++ ['}'] :=
  ⟨by decide, by decide, fix_json_fields_id_plain _ (by decide) (by decide)⟩

-- ------------------------------
-- Mutation Executor (`project_update`, kody.py lines 437-558)
-- ------------------------------

/-- The destructive-change safety check (kody.py line 501):
`old_content and len(old_content) > 100 and len(new_content) <
len(old_content) * 0.5`.  The float comparison `len(new) < len(old) * 0.5`
is exact for any realistic length (`n * 0.5` is exactly `n/2` in binary
floating point for `n < 2^53`), so it is modelled as `2*len(new) < len(old)`. -/
def destructiveWarning (old new : List Char) : Bool :=
  !(old == []) && decide (old.length > 100) && decide (2 * new.length < old.length)

theorem destructiveWarning_eq (old new : List Char) :
    destructiveWarning old new = true
      ↔ (old.length > 100 ∧ 2 * new.length < old.length) := by
  unfold destructiveWarning
  simp only [Bool.and_eq_true, decide_eq_true_eq, Bool.not_eq_true',
    beq_eq_false_iff_ne, ne_eq]
  constructor
  · rintro ⟨⟨_, h1⟩, h2⟩
    exact ⟨h1, h2⟩
  · rintro ⟨h1, h2⟩
    refine ⟨⟨?_, h1⟩, h2⟩
    intro he
    rw [he] at h1
    simp at h1

/-- C7 (confirmed): the safety check fires exactly when prior content exists
with length > 100 and the new length is below half the prior length; in
particular it fires at lengths 200/50 and not at 200/150. -/
theorem destructiveWarning_iff :
    (∀ old new : List Char,
      destructiveWarning old new = true
        ↔ (old.length > 100 ∧ 2 * new.length < old.length)) ∧
    destructiveWarning (List.replicate 200 'a') (List.replicate 50 'b') = true ∧
    destructiveWarning (List.replicate 200 'a') (List.replicate 150 'b') = false := by
  refine ⟨destructiveWarning_eq, ?_, ?_⟩
  · exact (destructiveWarning_eq _ _).mpr
      ⟨by rw [List.length_replicate]; norm_num,
       by rw [List.length_replicate, List.length_replicate]; norm_num⟩
  · rw [Bool.eq_false_iff]
    intro h
    rw [destructiveWarning_eq, List.length_replicate, List.length_replicate] at h
    omega

/-- The confirmation normalization (kody.py lines 505, 531, 545, 585):
`input(...).strip().lower() == "y"`. -/
def isAffirmative (raw : List Char) : Bool :=
  pyLower (pyStrip raw) == ['y']

/-- The two outcomes of a confirmation prompt. -/
inductive ConfirmResult where
  | commit : ConfirmResult
  | cancel : ConfirmResult
deriving DecidableEq

/-- A confirmation prompt of the Mutation Executor: commit on an affirmative
answer, cancel otherwise. -/
def confirmAction (raw : List Char) : ConfirmResult :=
  if isAffirmative raw then ConfirmResult.commit else ConfirmResult.cancel

/-- C8 (counterexample): it is not exactly the input `"y"` that is treated
as affirmative — the raw input `"Y"` also commits, yet differs from `"y"`. -/
theorem confirmAction_not_only_y :
    confirmAction ['Y'] = ConfirmResult.commit ∧ (['Y'] : List Char) ≠ ['y'] := by
  constructor
  · decide
  · decide

/-- C8 (amended): an input commits exactly when it equals `"y"` after
stripping surrounding whitespace and lower-casing (so `"Y"`, `" y "`, …
are also affirmative); every other input cancels. -/
theorem confirmAction_iff (raw : List Char) :
    confirmAction raw = ConfirmResult.commit ↔ pyLower (pyStrip raw) = ['y'] := by
  unfold confirmAction isAffirmative
  by_cases h : pyLower (pyStrip raw) = ['y']
  · simp [h]
  · rw [if_neg (by simpa using h)]
    simp [h]

/-- C8 (amended, decline side combined as a witness-carrying instance): the
normalized-equality criterion applied at a concrete input. -/
theorem confirmAction_iff_witness :
    confirmAction " Y ".toList = ConfirmResult.commit :=
  (confirmAction_iff " Y ".toList).mpr (by decide)

/-- A creation entry as read off the parsed JSON, before defaulting:
`creation.get("filename")`, `creation.get("content", "")`,
`creation.get("is_directory", False)` (kody.py lines 524-526).  A missing
key yields `none`. -/
structure RawCreation where
  filename : Option (List Char)
  content : Option (List Char)
  is_directory : Option Bool

/-- The filesystem action the creation loop takes for one entry after
defaulting and the falsiness test on the filename (kody.py lines 523-528);
prompting and writing are abstracted into the action. -/
inductive CreationAction where
  | skip : CreationAction
  | makeDirectory : List Char → CreationAction
  | makeFile : List Char → List Char → CreationAction
deriving DecidableEq

/-- The per-entry dispatch of the creation loop (kody.py lines 523-529, 540):
`if not filename: continue`, then directory vs. file on the defaulted
`is_directory`. -/
def creationStep (c : RawCreation) : CreationAction :=
  match c.filename with
  | none => CreationAction.skip
  | some f =>
    if f = [] then CreationAction.skip
    else if c.is_directory.getD false then CreationAction.makeDirectory f
    else CreationAction.makeFile f (c.content.getD [])

/-- C9 (confirmed): a missing or empty filename skips the entry with no
action; a missing content field defaults to the empty string; a missing
is_directory field defaults to false, so the entry is treated as a file
creation. -/
theorem creationStep_defaults :
    (∀ c : RawCreation, (c.filename = none ∨ c.filename = some []) →
      creationStep c = CreationAction.skip) ∧
    (∀ f : List Char, f ≠ [] → ∀ d : Option Bool,
      creationStep ⟨some f, none, d⟩
        = (if d.getD false then CreationAction.makeDirectory f
           else CreationAction.makeFile f [])) ∧
    (∀ f cont : List Char, f ≠ [] →
      creationStep ⟨some f, some cont, none⟩ = CreationAction.makeFile f cont) := by
  refine ⟨fun c hc => ?_, fun f hf d => ?_, fun f cont hf => ?_⟩
  · rcases hc with h | h <;> simp [creationStep, h]
  · simp [creationStep, hf]
  · simp [creationStep, hf, Option.getD]

/-- C9 (witness): the three clauses applied at concrete entries. -/
theorem creationStep_defaults_witness :
    creationStep ⟨none, some ['x'], some true⟩ = CreationAction.skip ∧
    creationStep ⟨some ['a'], none, some false⟩ = CreationAction.makeFile ['a'] [] ∧
    creationStep ⟨some ['a'], some ['h'], none⟩ = CreationAction.makeFile ['a'] ['h'] :=
  ⟨creationStep_defaults.1 ⟨none, some ['x'], some true⟩ (Or.inl rfl),
   by
     have := creationStep_defaults.2.1 ['a'] (by decide) (some false)
     simpa using this,
   creationStep_defaults.2.2 ['a'] ['h'] (by decide)⟩


theorem strStep_backslash (rest : List Char) :
    strStep ('\\' :: rest) = escStep rest := rfl

theorem escStep_u (r : List Char) : escStep ('u' :: r) = uStep r := rfl

theorem uStep_eq_some (h1 h2 h3 h4 : Char) (r2 : List Char) (n : Nat)
    (h : hex4Val h1 h2 h3 h4 = some n) :
    uStep (h1 :: h2 :: h3 :: h4 :: r2)
      = (if 0xd800 ≤ n ∧ n ≤ 0xdbff then lowSurrogateStep n r2
         else if 0xdc00 ≤ n ∧ n ≤ 0xdfff then StrStep.fail
         else StrStep.emit (Char.ofNat n) r2) := by
  show (match hex4Val h1 h2 h3 h4 with
        | none => StrStep.fail
        | some m =>
          if 0xd800 ≤ m ∧ m ≤ 0xdbff then lowSurrogateStep m r2
          else if 0xdc00 ≤ m ∧ m ≤ 0xdfff then StrStep.fail
          else StrStep.emit (Char.ofNat m) r2)
      = (if 0xd800 ≤ n ∧ n ≤ 0xdbff then lowSurrogateStep n r2
         else if 0xdc00 ≤ n ∧ n ≤ 0xdfff then StrStep.fail
         else StrStep.emit (Char.ofNat n) r2)
  rw [h]

theorem lowSurrogateStep_eq_some (n : Nat) (g1 g2 g3 g4 : Char) (r3 : List Char)
    (m : Nat) (h : hex4Val g1 g2 g3 g4 = some m) :
    lowSurrogateStep n ('\\' :: 'u' :: g1 :: g2 :: g3 :: g4 :: r3)
      = (if 0xdc00 ≤ m ∧ m ≤ 0xdfff then
          StrStep.emit (Char.ofNat (0x10000 + (n - 0xd800) * 0x400 + (m - 0xdc00))) r3
         else StrStep.fail) := by
  show (match hex4Val g1 g2 g3 g4 with
        | some k =>
          if 0xdc00 ≤ k ∧ k ≤ 0xdfff then
            StrStep.emit (Char.ofNat (0x10000 + (n - 0xd800) * 0x400 + (k - 0xdc00))) r3
          else StrStep.fail
        | none => StrStep.fail)
      = (if 0xdc00 ≤ m ∧ m ≤ 0xdfff then
          StrStep.emit (Char.ofNat (0x10000 + (n - 0xd800) * 0x400 + (m - 0xdc00))) r3
         else StrStep.fail)
  rw [h]

theorem strStep_surrogate_pair (hi lo : Nat) (hhi1 : 0xd800 ≤ hi)
    (hhi2 : hi ≤ 0xdbff) (hlo1 : 0xdc00 ≤ lo) (hlo2 : lo ≤ 0xdfff) (T : List Char) :
    strStep (('\\' :: 'u' :: hex4 hi ++ '\\' :: 'u' :: hex4 lo) ++ T)
      = StrStep.emit (Char.ofNat (0x10000 + (hi - 0xd800) * 0x400 + (lo - 0xdc00))) T := by
  simp only [hex4, List.cons_append, List.nil_append, List.append_assoc]
  rw [strStep_backslash, escStep_u,
    uStep_eq_some _ _ _ _ _ hi (hex4Val_hex4 hi (by omega)),
    if_pos ⟨hhi1, hhi2⟩,
    lowSurrogateStep_eq_some hi _ _ _ _ _ lo (hex4Val_hex4 lo (by omega)),
    if_pos ⟨hlo1, hlo2⟩]

theorem strStep_u_single (n : Nat) (h1 : n < 0x10000)
    (hns : ¬ (0xd800 ≤ n ∧ n ≤ 0xdbff)) (hns2 : ¬ (0xdc00 ≤ n ∧ n ≤ 0xdfff))
    (T : List Char) :
    strStep (('\\' :: 'u' :: hex4 n) ++ T) = StrStep.emit (Char.ofNat n) T := by
  simp only [hex4, List.cons_append, List.nil_append]
  rw [strStep_backslash, escStep_u,
    uStep_eq_some _ _ _ _ _ n (hex4Val_hex4 n h1),
    if_neg hns, if_neg hns2]

set_option maxRecDepth 4000 in
theorem strStep_escapeChar (c : Char) (T : List Char) :
    strStep (escapeChar c ++ T) = StrStep.emit c T := by
  by_cases h1 : c = '"'
  · subst h1; rfl
  by_cases h2 : c = '\\'
  · subst h2; rfl
  by_cases h3 : c = '\n'
  · subst h3; rfl
  by_cases h4 : c = '\r'
  · subst h4; rfl
  by_cases h5 : c = '\t'
  · subst h5; rfl
  by_cases h6 : c.toNat = 8
  · have hc : c = Char.ofNat 8 := by rw [← h6]; exact (Char.ofNat_toNat c).symm
    subst hc; rfl
  by_cases h7 : c.toNat = 12
  · have hc : c = Char.ofNat 12 := by rw [← h7]; exact (Char.ofNat_toNat c).symm
    subst hc; rfl
  by_cases h8 : c.toNat < 0x20
  · unfold escapeChar
    rw [if_neg h1, if_neg h2, if_neg h3, if_neg h4, if_neg h5, if_neg h6,
      if_neg h7, if_pos h8]
    rw [strStep_u_single c.toNat (by omega) (by omega) (by omega) T, Char.ofNat_toNat]
  by_cases h9 : c.toNat ≤ 0x7e
  · unfold escapeChar
    rw [if_neg h1, if_neg h2, if_neg h3, if_neg h4, if_neg h5, if_neg h6,
      if_neg h7, if_neg h8, if_pos h9]
    show strStep (c :: T) = StrStep.emit c T
    simp only [strStep]
    rw [if_neg h1, if_neg h2, if_neg h8]
  have hv : c.toNat < 0xd800 ∨ (0xdfff < c.toNat ∧ c.toNat < 0x110000) := c.valid
  by_cases h10 : c.toNat < 0x10000
  · unfold escapeChar
    rw [if_neg h1, if_neg h2, if_neg h3, if_neg h4, if_neg h5, if_neg h6,
      if_neg h7, if_neg h8, if_neg (by omega), if_pos h10]
    have hns : ¬ (0xd800 ≤ c.toNat ∧ c.toNat ≤ 0xdbff) := by
      rcases hv with h | ⟨ha, hb⟩ <;> omega
    have hns2 : ¬ (0xdc00 ≤ c.toNat ∧ c.toNat ≤ 0xdfff) := by
      rcases hv with h | ⟨ha, hb⟩ <;> omega
    rw [strStep_u_single c.toNat h10 hns hns2 T, Char.ofNat_toNat]
  · have hcv : c.toNat < 0x110000 := by
      rcases hv with h | ⟨ha, hb⟩ <;> omega
    unfold escapeChar
    rw [if_neg h1, if_neg h2, if_neg h3, if_neg h4, if_neg h5, if_neg h6,
      if_neg h7, if_neg h8, if_neg (by omega), if_neg h10]
    rw [strStep_surrogate_pair _ _ (by omega) (by omega) (by omega) (by omega) T]
    have harith : 0x10000 + (0xd800 + (c.toNat - 0x10000) / 0x400 - 0xd800) * 0x400 +
        (0xdc00 + (c.toNat - 0x10000) % 0x400 - 0xdc00) = c.toNat := by
      omega
    rw [harith, Char.ofNat_toNat]

/-- Round-trip of the string scanner: a `json.dumps`-escaped string body
followed by the closing quote parses back to the original characters. -/
theorem parseString_escape (s rest : List Char) :
    parseString (escapeString s ++ '"' :: rest) = some (s, rest) := by
  induction s with
  | nil => exact parseString_done _ _ rfl
  | cons c t ih =>
    simp only [escapeString, List.map_cons, List.flatten_cons, List.append_assoc]
    rw [parseString_emit _ c _ (strStep_escapeChar c _)]
    have ih2 : parseString ((t.map escapeChar).flatten ++ '"' :: rest) = some (t, rest) := ih
    rw [ih2]
    rfl

theorem skipWs_cons (c : Char) (t : List Char) (h : isWsJson c = false) :
    skipWs (c :: t) = c :: t := by
  unfold skipWs
  rw [List.dropWhile_cons_of_neg (by simp [h])]

theorem parseValue_succ (fuel : Nat) (s : List Char) :
    parseValue (fuel + 1) s
      = match skipWs s with
        | '"' :: r => (parseString r).map (fun p => (JValue.str p.1, p.2))
        | '{' :: r =>
          (match skipWs r with
           | '}' :: r2 => some (JValue.obj [], r2)
           | _ => (parseMembers fuel r).map (fun p => (JValue.obj p.1, p.2)))
        | '[' :: r =>
          (match skipWs r with
           | ']' :: r2 => some (JValue.arr [], r2)
           | _ => (parseElems fuel r).map (fun p => (JValue.arr p.1, p.2)))
        | 't' :: 'r' :: 'u' :: 'e' :: r => some (JValue.bool true, r)
        | 'f' :: 'a' :: 'l' :: 's' :: 'e' :: r => some (JValue.bool false, r)
        | 'n' :: 'u' :: 'l' :: 'l' :: r => some (JValue.null, r)
        | _ => none := rfl

theorem parseMembers_succ (fuel : Nat) (s : List Char) :
    parseMembers (fuel + 1) s
      = match skipWs s with
        | '"' :: r =>
          (match parseString r with
           | none => none
           | some (key, r2) =>
             match skipWs r2 with
             | ':' :: r3 =>
               (match parseValue fuel r3 with
                | none => none
                | some (v, r4) =>
                  match skipWs r4 with
                  | ',' :: r5 => (parseMembers fuel r5).map (fun p => ((key, v) :: p.1, p.2))
                  | '}' :: r5 => some ([(key, v)], r5)
                  | _ => none)
             | _ => none)
        | _ => none := rfl

theorem parseElems_succ (fuel : Nat) (s : List Char) :
    parseElems (fuel + 1) s
      = match parseValue fuel s with
        | none => none
        | some (v, r) =>
          match skipWs r with
          | ',' :: r2 => (parseElems fuel r2).map (fun p => (v :: p.1, p.2))
          | ']' :: r2 => some ([v], r2)
          | _ => none := rfl

/-- Parsing a rendered string as a JSON value. -/
theorem parseValue_str (fuel : Nat) (s rest : List Char) :
    parseValue (fuel + 1) (renderJString s ++ rest) = some (JValue.str s, rest) := by
  unfold renderJString
  simp only [List.cons_append, List.append_assoc, List.singleton_append]
  rw [parseValue_succ]
  rw [skipWs_cons '"' _ (by decide)]
  show (parseString (escapeString s ++ '"' :: rest)).map
      (fun p => (JValue.str p.1, p.2)) = some (JValue.str s, rest)
  rw [parseString_escape]
  rfl

theorem skipWs_space (t : List Char) : skipWs (' ' :: t) = skipWs t := by
  unfold skipWs
  rw [List.dropWhile_cons_of_pos (by decide)]

/-- Parsing a non-empty rendered object whose body starts with a key. -/
theorem parseValue_obj (fuel : Nat) (s r t : List Char)
    (kvs : List (List Char × JValue)) (rest : List Char)
    (hs : skipWs s = '{' :: r) (hr : skipWs r = '"' :: t)
    (hm : parseMembers fuel r = some (kvs, rest)) :
    parseValue (fuel + 1) s = some (JValue.obj kvs, rest) := by
  rw [parseValue_succ, hs]
  show (match skipWs r with
        | '}' :: r2 => some (JValue.obj [], r2)
        | _ => (parseMembers fuel r).map (fun p => (JValue.obj p.1, p.2)))
      = some (JValue.obj kvs, rest)
  rw [hr]
  show (parseMembers fuel r).map (fun p => (JValue.obj p.1, p.2))
      = some (JValue.obj kvs, rest)
  rw [hm]
  rfl

/-- Parsing a rendered empty array. -/
theorem parseValue_arr_empty (fuel : Nat) (s r r2 : List Char)
    (hs : skipWs s = '[' :: r) (hr : skipWs r = ']' :: r2) :
    parseValue (fuel + 1) s = some (JValue.arr [], r2) := by
  rw [parseValue_succ, hs]
  show (match skipWs r with
        | ']' :: r2 => some (JValue.arr [], r2)
        | _ => (parseElems fuel r).map (fun p => (JValue.arr p.1, p.2)))
      = some (JValue.arr [], r2)
  rw [hr]
  rfl

/-- Parsing a non-empty rendered array whose first element is an object. -/
theorem parseValue_arr (fuel : Nat) (s r : List Char) (vs : List JValue)
    (rest : List Char)
    (hs : skipWs s = '[' :: r) (hr : ∃ t, skipWs r = '{' :: t)
    (he : parseElems fuel r = some (vs, rest)) :
    parseValue (fuel + 1) s = some (JValue.arr vs, rest) := by
  obtain ⟨t, hr⟩ := hr
  rw [parseValue_succ, hs]
  show (match skipWs r with
        | ']' :: r2 => some (JValue.arr [], r2)
        | _ => (parseElems fuel r).map (fun p => (JValue.arr p.1, p.2)))
      = some (JValue.arr vs, rest)
  rw [hr]
  show (parseElems fuel r).map (fun p => (JValue.arr p.1, p.2))
      = some (JValue.arr vs, rest)
  rw [he]
  rfl

/-- Parsing the last member of an object body. -/
theorem parseMembers_last (fuel : Nat) (s key X : List Char) (v : JValue)
    (tail r5 : List Char)
    (hs : skipWs s = '"' :: (escapeString key ++ '"' :: ':' :: X))
    (hv : parseValue fuel X = some (v, tail))
    (ht : skipWs tail = '}' :: r5) :
    parseMembers (fuel + 1) s = some ([(key, v)], r5) := by
  rw [parseMembers_succ, hs]
  show (match parseString (escapeString key ++ '"' :: ':' :: X) with
        | none => none
        | some (key, r2) =>
          match skipWs r2 with
          | ':' :: r3 =>
            (match parseValue fuel r3 with
             | none => none
             | some (v, r4) =>
               match skipWs r4 with
               | ',' :: r5 => (parseMembers fuel r5).map (fun p => ((key, v) :: p.1, p.2))
               | '}' :: r5 => some ([(key, v)], r5)
               | _ => none)
          | _ => none)
      = some ([(key, v)], r5)
  rw [parseString_escape key (':' :: X)]
  show (match skipWs (':' :: X) with
        | ':' :: r3 =>
          (match parseValue fuel r3 with
           | none => none
           | some (v, r4) =>
              match skipWs r4 with
              | ',' :: r5 => (parseMembers fuel r5).map (fun p => ((key, v) :: p.1, p.2))
              | '}' :: r5 => some ([(key, v)], r5)
              | _ => none)
        | _ => none)
      = some ([(key, v)], r5)
  rw [skipWs_cons ':' _ (by decide)]
  show (match parseValue fuel X with
        | none => none
        | some (v, r4) =>
          match skipWs r4 with
          | ',' :: r5 => (parseMembers fuel r5).map (fun p => ((key, v) :: p.1, p.2))
          | '}' :: r5 => some ([(key, v)], r5)
          | _ => none)
      = some ([(key, v)], r5)
  rw [hv]
  show (match skipWs tail with
        | ',' :: r5 => (parseMembers fuel r5).map (fun p => ((key, v) :: p.1, p.2))
        | '}' :: r5 => some ([(key, v)], r5)
        | _ => none)
      = some ([(key, v)], r5)
  rw [ht]
  rfl

/-- Parsing a non-last member of an object body. -/
theorem parseMembers_more (fuel : Nat) (s key X : List Char) (v : JValue)
    (tail r5 : List Char) (kvs : List (List Char × JValue)) (rest : List Char)
    (hs : skipWs s = '"' :: (escapeString key ++ '"' :: ':' :: X))
    (hv : parseValue fuel X = some (v, tail))
    (ht : skipWs tail = ',' :: r5)
    (hrec : parseMembers fuel r5 = some (kvs, rest)) :
    parseMembers (fuel + 1) s = some ((key, v) :: kvs, rest) := by
  rw [parseMembers_succ, hs]
  show (match parseString (escapeString key ++ '"' :: ':' :: X) with
        | none => none
        | some (key, r2) =>
          match skipWs r2 with
          | ':' :: r3 =>
            (match parseValue fuel r3 with
             | none => none
             | some (v, r4) =>
               match skipWs r4 with
               | ',' :: r5 => (parseMembers fuel r5).map (fun p => ((key, v) :: p.1, p.2))
               | '}' :: r5 => some ([(key, v)], r5)
               | _ => none)
          | _ => none)
      = some ((key, v) :: kvs, rest)
  rw [parseString_escape key (':' :: X)]
  show (match skipWs (':' :: X) with
        | ':' :: r3 =>
          (match parseValue fuel r3 with
           | none => none
           | some (v, r4) =>
              match skipWs r4 with
              | ',' :: r5 => (parseMembers fuel r5).map (fun p => ((key, v) :: p.1, p.2))
              | '}' :: r5 => some ([(key, v)], r5)
              | _ => none)
        | _ => none)
      = some ((key, v) :: kvs, rest)
  rw [skipWs_cons ':' _ (by decide)]
  show (match parseValue fuel X with
        | none => none
        | some (v, r4) =>
          match skipWs r4 with
          | ',' :: r5 => (parseMembers fuel r5).map (fun p => ((key, v) :: p.1, p.2))
          | '}' :: r5 => some ([(key, v)], r5)
          | _ => none)
      = some ((key, v) :: kvs, rest)
  rw [hv]
  show (match skipWs tail with
        | ',' :: r5 => (parseMembers fuel r5).map (fun p => ((key, v) :: p.1, p.2))
        | '}' :: r5 => some ([(key, v)], r5)
        | _ => none)
      = some ((key, v) :: kvs, rest)
  rw [ht]
  show (parseMembers fuel r5).map (fun p => ((key, v) :: p.1, p.2))
      = some ((key, v) :: kvs, rest)
  rw [hrec]
  rfl

/-- Parsing the last element of an array body. -/
theorem parseElems_last (fuel : Nat) (X : List Char) (v : JValue)
    (tail r2 : List Char)
    (hv : parseValue fuel X = some (v, tail))
    (ht : skipWs tail = ']' :: r2) :
    parseElems (fuel + 1) X = some ([v], r2) := by
  rw [parseElems_succ, hv]
  show (match skipWs tail with
        | ',' :: r2 => (parseElems fuel r2).map (fun p => (v :: p.1, p.2))
        | ']' :: r2 => some ([v], r2)
        | _ => none)
      = some ([v], r2)
  rw [ht]
  rfl

/-- Parsing a non-last element of an array body. -/
theorem parseElems_more (fuel : Nat) (X : List Char) (v : JValue)
    (tail r2 : List Char) (vs : List JValue) (rest : List Char)
    (hv : parseValue fuel X = some (v, tail))
    (ht : skipWs tail = ',' :: r2)
    (hrec : parseElems fuel r2 = some (vs, rest)) :
    parseElems (fuel + 1) X = some (v :: vs, rest) := by
  rw [parseElems_succ, hv]
  show (match skipWs tail with
        | ',' :: r2 => (parseElems fuel r2).map (fun p => (v :: p.1, p.2))
        | ']' :: r2 => some ([v], r2)
        | _ => none)
      = some (v :: vs, rest)
  rw [ht]
  show (parseElems fuel r2).map (fun p => (v :: p.1, p.2)) = some (v :: vs, rest)
  rw [hrec]
  rfl

set_option maxHeartbeats 1000000 in
theorem parseValue_str_sp (fuel : Nat) (s rest : List Char) :
    parseValue (fuel + 1) (' ' :: renderJString s ++ rest) = some (JValue.str s, rest) := by
  rw [parseValue_succ]
  unfold renderJString
  simp only [List.cons_append, List.append_assoc, List.singleton_append]
  rw [skipWs_space, skipWs_cons '"' _ (by decide)]
  show (parseString (escapeString s ++ '"' :: rest)).map
      (fun p => (JValue.str p.1, p.2)) = some (JValue.str s, rest)
  rw [parseString_escape]
  rfl

theorem parseValue_bool_sp (fuel : Nat) (b : Bool) (rest : List Char) :
    parseValue (fuel + 1) (' ' :: renderBool b ++ rest) = some (JValue.bool b, rest) := by
  cases b
  · have h1 : skipWs (' ' :: renderBool false ++ rest)
        = 'f' :: 'a' :: 'l' :: 's' :: 'e' :: rest := by
      show skipWs (' ' :: 'f' :: 'a' :: 'l' :: 's' :: 'e' :: rest) = _
      rw [skipWs_space]
      exact skipWs_cons 'f' _ (by decide)
    rw [parseValue_succ, h1]
    rfl
  · have h1 : skipWs (' ' :: renderBool true ++ rest)
        = 't' :: 'r' :: 'u' :: 'e' :: rest := by
      show skipWs (' ' :: 't' :: 'r' :: 'u' :: 'e' :: rest) = _
      rw [skipWs_space]
      exact skipWs_cons 't' _ (by decide)
    rw [parseValue_succ, h1]
    rfl

/-- Parsing a rendered modification entry, possibly after one separator
space. -/
theorem parseValue_modEntry (fuel : Nat) (e : ModificationEntry) (s after : List Char)
    (hs : s = renderModEntry e ++ after ∨ s = ' ' :: (renderModEntry e ++ after)) :
    parseValue (fuel + 4) s = some (modEntryJ e, after) := by
  have h3 : parseValue (fuel + 1) (' ' :: renderJString e.new_content ++ '}' :: after)
      = some (JValue.str e.new_content, '}' :: after) :=
    parseValue_str_sp fuel e.new_content _
  have h4 : parseMembers (fuel + 2)
      (' ' :: renderJString "new_content".toList
        ++ ':' :: (' ' :: renderJString e.new_content ++ '}' :: after))
      = some ([("new_content".toList, JValue.str e.new_content)], after) := by
    refine parseMembers_last (fuel + 1) _ "new_content".toList
      (' ' :: renderJString e.new_content ++ '}' :: after)
      (JValue.str e.new_content) ('}' :: after) after ?_ h3
      (skipWs_cons '}' _ (by decide))
    unfold renderJString
    simp only [List.cons_append, List.append_assoc, List.singleton_append]
    rw [skipWs_space]
    exact skipWs_cons '"' _ (by decide)
  have h2 : parseValue (fuel + 2)
      (' ' :: renderJString e.filename
        ++ ',' :: (' ' :: renderJString "new_content".toList
          ++ ':' :: (' ' :: renderJString e.new_content ++ '}' :: after)))
      = some (JValue.str e.filename,
          ',' :: (' ' :: renderJString "new_content".toList
            ++ ':' :: (' ' :: renderJString e.new_content ++ '}' :: after))) :=
    parseValue_str_sp (fuel + 1) e.filename _
  have h5 : parseMembers (fuel + 3)
      (renderJString "filename".toList
        ++ ':' :: (' ' :: renderJString e.filename
          ++ ',' :: (' ' :: renderJString "new_content".toList
            ++ ':' :: (' ' :: renderJString e.new_content ++ '}' :: after))))
      = some ([("filename".toList, JValue.str e.filename),
               ("new_content".toList, JValue.str e.new_content)], after) := by
    refine parseMembers_more (fuel + 2) _ "filename".toList
      (' ' :: renderJString e.filename
        ++ ',' :: (' ' :: renderJString "new_content".toList
          ++ ':' :: (' ' :: renderJString e.new_content ++ '}' :: after)))
      (JValue.str e.filename)
      (',' :: (' ' :: renderJString "new_content".toList
        ++ ':' :: (' ' :: renderJString e.new_content ++ '}' :: after)))
      (' ' :: renderJString "new_content".toList
        ++ ':' :: (' ' :: renderJString e.new_content ++ '}' :: after))
      _ after ?_ h2 (skipWs_cons ',' _ (by decide)) h4
    unfold renderJString
    simp only [List.cons_append, List.append_assoc, List.singleton_append]
    exact skipWs_cons '"' _ (by decide)
  have hr1 : skipWs
      (renderJString "filename".toList
        ++ ':' :: (' ' :: renderJString e.filename
          ++ ',' :: (' ' :: renderJString "new_content".toList
            ++ ':' :: (' ' :: renderJString e.new_content ++ '}' :: after))))
      = '"' :: (escapeString "filename".toList
        ++ '"' :: ':' :: (' ' :: renderJString e.filename
          ++ ',' :: (' ' :: renderJString "new_content".toList
            ++ ':' :: (' ' :: renderJString e.new_content ++ '}' :: after)))) := by
    unfold renderJString
    simp only [List.cons_append, List.append_assoc, List.singleton_append]
    exact skipWs_cons '"' _ (by decide)
  rcases hs with h | h <;> subst h
  · have hs1 : skipWs (renderModEntry e ++ after)
        = '{' :: (renderJString "filename".toList
          ++ ':' :: (' ' :: renderJString e.filename
            ++ ',' :: (' ' :: renderJString "new_content".toList
              ++ ':' :: (' ' :: renderJString e.new_content ++ '}' :: after)))) := by
      unfold renderModEntry renderJString
      simp only [List.cons_append, List.append_assoc, List.singleton_append]
      exact skipWs_cons '{' _ (by decide)
    exact parseValue_obj (fuel + 3) _ _ _ _ after hs1 hr1 h5
  · have hs1 : skipWs (' ' :: (renderModEntry e ++ after))
        = '{' :: (renderJString "filename".toList
          ++ ':' :: (' ' :: renderJString e.filename
            ++ ',' :: (' ' :: renderJString "new_content".toList
              ++ ':' :: (' ' :: renderJString e.new_content ++ '}' :: after)))) := by
      rw [skipWs_space]
      unfold renderModEntry renderJString
      simp only [List.cons_append, List.append_assoc, List.singleton_append]
      exact skipWs_cons '{' _ (by decide)
    exact parseValue_obj (fuel + 3) _ _ _ _ after hs1 hr1 h5

/-- Parsing a rendered creation entry, possibly after one separator space. -/
theorem parseValue_creEntry (fuel : Nat) (e : CreationEntry) (s after : List Char)
    (hs : s = renderCreEntry e ++ after ∨ s = ' ' :: (renderCreEntry e ++ after)) :
    parseValue (fuel + 5) s = some (creEntryJ e, after) := by
  have hb : parseValue (fuel + 1) (' ' :: renderBool e.is_directory ++ '}' :: after)
      = some (JValue.bool e.is_directory, '}' :: after) :=
    parseValue_bool_sp fuel e.is_directory _
  have hm3 : parseMembers (fuel + 2)
      (' ' :: renderJString "is_directory".toList
        ++ ':' :: (' ' :: renderBool e.is_directory ++ '}' :: after))
      = some ([("is_directory".toList, JValue.bool e.is_directory)], after) := by
    refine parseMembers_last (fuel + 1) _ "is_directory".toList
      (' ' :: renderBool e.is_directory ++ '}' :: after)
      (JValue.bool e.is_directory) ('}' :: after) after ?_ hb
      (skipWs_cons '}' _ (by decide))
    unfold renderJString
    simp only [List.cons_append, List.append_assoc, List.singleton_append]
    rw [skipWs_space]
    exact skipWs_cons '"' _ (by decide)
  have hv2 : parseValue (fuel + 2)
      (' ' :: renderJString e.content
        ++ ',' :: (' ' :: renderJString "is_directory".toList
          ++ ':' :: (' ' :: renderBool e.is_directory ++ '}' :: after)))
      = some (JValue.str e.content,
          ',' :: (' ' :: renderJString "is_directory".toList
            ++ ':' :: (' ' :: renderBool e.is_directory ++ '}' :: after))) :=
    parseValue_str_sp (fuel + 1) e.content _
  have hm2 : parseMembers (fuel + 3)
      (' ' :: renderJString "content".toList
        ++ ':' :: (' ' :: renderJString e.content
          ++ ',' :: (' ' :: renderJString "is_directory".toList
            ++ ':' :: (' ' :: renderBool e.is_directory ++ '}' :: after))))
      = some ([("content".toList, JValue.str e.content),
               ("is_directory".toList, JValue.bool e.is_directory)], after) := by
    refine parseMembers_more (fuel + 2) _ "content".toList
      (' ' :: renderJString e.content
        ++ ',' :: (' ' :: renderJString "is_directory".toList
          ++ ':' :: (' ' :: renderBool e.is_directory ++ '}' :: after)))
      (JValue.str e.content)
      (',' :: (' ' :: renderJString "is_directory".toList
        ++ ':' :: (' ' :: renderBool e.is_directory ++ '}' :: after)))
      (' ' :: renderJString "is_directory".toList
        ++ ':' :: (' ' :: renderBool e.is_directory ++ '}' :: after))
      _ after ?_ hv2 (skipWs_cons ',' _ (by decide)) hm3
    unfold renderJString
    simp only [List.cons_append, List.append_assoc, List.singleton_append]
    rw [skipWs_space]
    exact skipWs_cons '"' _ (by decide)
  have hv1 : parseValue (fuel + 3)
      (' ' :: renderJString e.filename
        ++ ',' :: (' ' :: renderJString "content".toList
          ++ ':' :: (' ' :: renderJString e.content
            ++ ',' :: (' ' :: renderJString "is_directory".toList
              ++ ':' :: (' ' :: renderBool e.is_directory ++ '}' :: after)))))
      = some (JValue.str e.filename,
          ',' :: (' ' :: renderJString "content".toList
            ++ ':' :: (' ' :: renderJString e.content
              ++ ',' :: (' ' :: renderJString "is_directory".toList
                ++ ':' :: (' ' :: renderBool e.is_directory ++ '}' :: after))))) :=
    parseValue_str_sp (fuel + 2) e.filename _
  have hm1 : parseMembers (fuel + 4)
      (renderJString "filename".toList
        ++ ':' :: (' ' :: renderJString e.filename
          ++ ',' :: (' ' :: renderJString "content".toList
            ++ ':' :: (' ' :: renderJString e.content
              ++ ',' :: (' ' :: renderJString "is_directory".toList
                ++ ':' :: (' ' :: renderBool e.is_directory ++ '}' :: after))))))
      = some ([("filename".toList, JValue.str e.filename),
               ("content".toList, JValue.str e.content),
               ("is_directory".toList, JValue.bool e.is_directory)], after) := by
    refine parseMembers_more (fuel + 3) _ "filename".toList
      (' ' :: renderJString e.filename
        ++ ',' :: (' ' :: renderJString "content".toList
          ++ ':' :: (' ' :: renderJString e.content
            ++ ',' :: (' ' :: renderJString "is_directory".toList
              ++ ':' :: (' ' :: renderBool e.is_directory ++ '}' :: after)))))
      (JValue.str e.filename)
      (',' :: (' ' :: renderJString "content".toList
        ++ ':' :: (' ' :: renderJString e.content
          ++ ',' :: (' ' :: renderJString "is_directory".toList
            ++ ':' :: (' ' :: renderBool e.is_directory ++ '}' :: after)))))
      (' ' :: renderJString "content".toList
        ++ ':' :: (' ' :: renderJString e.content
          ++ ',' :: (' ' :: renderJString "is_directory".toList
            ++ ':' :: (' ' :: renderBool e.is_directory ++ '}' :: after))))
      _ after ?_ hv1 (skipWs_cons ',' _ (by decide)) hm2
    unfold renderJString
    simp only [List.cons_append, List.append_assoc, List.singleton_append]
    exact skipWs_cons '"' _ (by decide)
  have hr1 : skipWs
      (renderJString "filename".toList
        ++ ':' :: (' ' :: renderJString e.filename
          ++ ',' :: (' ' :: renderJString "content".toList
            ++ ':' :: (' ' :: renderJString e.content
              ++ ',' :: (' ' :: renderJString "is_directory".toList
                ++ ':' :: (' ' :: renderBool e.is_directory ++ '}' :: after))))))
      = '"' :: (escapeString "filename".toList
        ++ '"' :: ':' :: (' ' :: renderJString e.filename
          ++ ',' :: (' ' :: renderJString "content".toList
            ++ ':' :: (' ' :: renderJString e.content
              ++ ',' :: (' ' :: renderJString "is_directory".toList
                ++ ':' :: (' ' :: renderBool e.is_directory ++ '}' :: after)))))) := by
    unfold renderJString
    simp only [List.cons_append, List.append_assoc, List.singleton_append]
    exact skipWs_cons '"' _ (by decide)
  rcases hs with h | h <;> subst h
  · have hs1 : skipWs (renderCreEntry e ++ after)
        = '{' :: (renderJString "filename".toList
          ++ ':' :: (' ' :: renderJString e.filename
            ++ ',' :: (' ' :: renderJString "content".toList
              ++ ':' :: (' ' :: renderJString e.content
                ++ ',' :: (' ' :: renderJString "is_directory".toList
                  ++ ':' :: (' ' :: renderBool e.is_directory ++ '}' :: after)))))) := by
      unfold renderCreEntry renderJString
      simp only [List.cons_append, List.append_assoc, List.singleton_append]
      exact skipWs_cons '{' _ (by decide)
    exact parseValue_obj (fuel + 4) _ _ _ _ after hs1 hr1 hm1
  · have hs1 : skipWs (' ' :: (renderCreEntry e ++ after))
        = '{' :: (renderJString "filename".toList
          ++ ':' :: (' ' :: renderJString e.filename
            ++ ',' :: (' ' :: renderJString "content".toList
              ++ ':' :: (' ' :: renderJString e.content
                ++ ',' :: (' ' :: renderJString "is_directory".toList
                  ++ ':' :: (' ' :: renderBool e.is_directory ++ '}' :: after)))))) := by
      rw [skipWs_space]
      unfold renderCreEntry renderJString
      simp only [List.cons_append, List.append_assoc, List.singleton_append]
      exact skipWs_cons '{' _ (by decide)
    exact parseValue_obj (fuel + 4) _ _ _ _ after hs1 hr1 hm1

/-- Parsing the elements of a non-empty rendered modification array. -/
theorem parseElems_mods (es : List ModificationEntry) :
    ∀ (fuel : Nat) (e : ModificationEntry) (s after : List Char),
      (s = renderModEntry e ++ (renderArrTail renderModEntry es ++ after)
        ∨ s = ' ' :: (renderModEntry e ++ (renderArrTail renderModEntry es ++ after))) →
      parseElems (fuel + es.length + 5) s = some ((e :: es).map modEntryJ, after) := by
  induction es with
  | nil =>
    intro fuel e s after hOr
    have hv : parseValue (fuel + 4) s = some (modEntryJ e, ']' :: after) := by
      apply parseValue_modEntry fuel e s (']' :: after)
      simpa only [renderArrTail, List.singleton_append] using hOr
    exact parseElems_last (fuel + 4) s (modEntryJ e) (']' :: after) after hv
      (skipWs_cons ']' _ (by decide))
  | cons e2 es' ih =>
    intro fuel e s after hOr
    have hv : parseValue (fuel + es'.length + 1 + 4) s
        = some (modEntryJ e, renderArrTail renderModEntry (e2 :: es') ++ after) :=
      parseValue_modEntry (fuel + es'.length + 1) e s _ hOr
    have ht : skipWs (renderArrTail renderModEntry (e2 :: es') ++ after)
        = ',' :: (' ' :: (renderModEntry e2 ++ (renderArrTail renderModEntry es' ++ after))) := by
      simp only [renderArrTail, List.cons_append, List.append_assoc]
      exact skipWs_cons ',' _ (by decide)
    have hrec : parseElems (fuel + es'.length + 5)
        (' ' :: (renderModEntry e2 ++ (renderArrTail renderModEntry es' ++ after)))
        = some ((e2 :: es').map modEntryJ, after) :=
      ih fuel e2 _ after (Or.inr rfl)
    exact parseElems_more (fuel + es'.length + 5) s (modEntryJ e) _ _
      ((e2 :: es').map modEntryJ) after hv ht hrec

/-- Parsing the elements of a non-empty rendered creation array. -/
theorem parseElems_cres (es : List CreationEntry) :
    ∀ (fuel : Nat) (e : CreationEntry) (s after : List Char),
      (s = renderCreEntry e ++ (renderArrTail renderCreEntry es ++ after)
        ∨ s = ' ' :: (renderCreEntry e ++ (renderArrTail renderCreEntry es ++ after))) →
      parseElems (fuel + es.length + 6) s = some ((e :: es).map creEntryJ, after) := by
  induction es with
  | nil =>
    intro fuel e s after hOr
    have hv : parseValue (fuel + 5) s = some (creEntryJ e, ']' :: after) := by
      apply parseValue_creEntry fuel e s (']' :: after)
      simpa only [renderArrTail, List.singleton_append] using hOr
    exact parseElems_last (fuel + 5) s (creEntryJ e) (']' :: after) after hv
      (skipWs_cons ']' _ (by decide))
  | cons e2 es' ih =>
    intro fuel e s after hOr
    have hv : parseValue (fuel + es'.length + 1 + 5) s
        = some (creEntryJ e, renderArrTail renderCreEntry (e2 :: es') ++ after) :=
      parseValue_creEntry (fuel + es'.length + 1) e s _ hOr
    have ht : skipWs (renderArrTail renderCreEntry (e2 :: es') ++ after)
        = ',' :: (' ' :: (renderCreEntry e2 ++ (renderArrTail renderCreEntry es' ++ after))) := by
      simp only [renderArrTail, List.cons_append, List.append_assoc]
      exact skipWs_cons ',' _ (by decide)
    have hrec : parseElems (fuel + es'.length + 6)
        (' ' :: (renderCreEntry e2 ++ (renderArrTail renderCreEntry es' ++ after)))
        = some ((e2 :: es').map creEntryJ, after) :=
      ih fuel e2 _ after (Or.inr rfl)
    exact parseElems_more (fuel + es'.length + 6) s (creEntryJ e) _ _
      ((e2 :: es').map creEntryJ) after hv ht hrec

/-- Parsing a rendered modification array, possibly after one separator
space. -/
theorem parseValue_modArr (fuel : Nat) (ms : List ModificationEntry)
    (s after : List Char)
    (hs : s = renderArr renderModEntry ms ++ after
        ∨ s = ' ' :: (renderArr renderModEntry ms ++ after)) :
    parseValue (fuel + ms.length + 6) s = some (JValue.arr (ms.map modEntryJ), after) := by
  cases ms with
  | nil =>
    have hs1 : skipWs s = '[' :: (']' :: after) := by
      rcases hs with h | h <;> subst h
      · simp only [renderArr, List.cons_append, List.singleton_append, List.nil_append]
        exact skipWs_cons '[' _ (by decide)
      · rw [skipWs_space]
        simp only [renderArr, List.cons_append, List.singleton_append, List.nil_append]
        exact skipWs_cons '[' _ (by decide)
    exact parseValue_arr_empty (fuel + 0 + 5) s _ _ hs1 (skipWs_cons ']' _ (by decide))
  | cons m ms' =>
    have hs1 : skipWs s
        = '[' :: (renderModEntry m ++ (renderArrTail renderModEntry ms' ++ after)) := by
      rcases hs with h | h <;> subst h
      · simp only [renderArr, List.cons_append, List.append_assoc]
        exact skipWs_cons '[' _ (by decide)
      · rw [skipWs_space]
        simp only [renderArr, List.cons_append, List.append_assoc]
        exact skipWs_cons '[' _ (by decide)
    have hr : ∃ t, skipWs (renderModEntry m ++ (renderArrTail renderModEntry ms' ++ after))
        = '{' :: t := by
      unfold renderModEntry
      simp only [List.cons_append, List.append_assoc]
      exact ⟨_, skipWs_cons '{' _ (by decide)⟩
    have he : parseElems (fuel + 1 + ms'.length + 5)
        (renderModEntry m ++ (renderArrTail renderModEntry ms' ++ after))
        = some ((m :: ms').map modEntryJ, after) :=
      parseElems_mods ms' (fuel + 1) m _ after (Or.inl rfl)
    have harith : fuel + (m :: ms').length + 6 = (fuel + 1 + ms'.length + 5) + 1 := by
      simp only [List.length_cons]
      omega
    rw [harith]
    exact parseValue_arr (fuel + 1 + ms'.length + 5) s _ _ after hs1 hr he

/-- Parsing a rendered creation array, possibly after one separator space. -/
theorem parseValue_creArr (fuel : Nat) (cs : List CreationEntry)
    (s after : List Char)
    (hs : s = renderArr renderCreEntry cs ++ after
        ∨ s = ' ' :: (renderArr renderCreEntry cs ++ after)) :
    parseValue (fuel + cs.length + 7) s = some (JValue.arr (cs.map creEntryJ), after) := by
  cases cs with
  | nil =>
    have hs1 : skipWs s = '[' :: (']' :: after) := by
      rcases hs with h | h <;> subst h
      · simp only [renderArr, List.cons_append, List.singleton_append, List.nil_append]
        exact skipWs_cons '[' _ (by decide)
      · rw [skipWs_space]
        simp only [renderArr, List.cons_append, List.singleton_append, List.nil_append]
        exact skipWs_cons '[' _ (by decide)
    exact parseValue_arr_empty (fuel + 0 + 6) s _ _ hs1 (skipWs_cons ']' _ (by decide))
  | cons m cs' =>
    have hs1 : skipWs s
        = '[' :: (renderCreEntry m ++ (renderArrTail renderCreEntry cs' ++ after)) := by
      rcases hs with h | h <;> subst h
      · simp only [renderArr, List.cons_append, List.append_assoc]
        exact skipWs_cons '[' _ (by decide)
      · rw [skipWs_space]
        simp only [renderArr, List.cons_append, List.append_assoc]
        exact skipWs_cons '[' _ (by decide)
    have hr : ∃ t, skipWs (renderCreEntry m ++ (renderArrTail renderCreEntry cs' ++ after))
        = '{' :: t := by
      unfold renderCreEntry
      simp only [List.cons_append, List.append_assoc]
      exact ⟨_, skipWs_cons '{' _ (by decide)⟩
    have he : parseElems (fuel + 1 + cs'.length + 6)
        (renderCreEntry m ++ (renderArrTail renderCreEntry cs' ++ after))
        = some ((m :: cs').map creEntryJ, after) :=
      parseElems_cres cs' (fuel + 1) m _ after (Or.inl rfl)
    have harith : fuel + (m :: cs').length + 7 = (fuel + 1 + cs'.length + 6) + 1 := by
      simp only [List.length_cons]
      omega
    rw [harith]
    exact parseValue_arr (fuel + 1 + cs'.length + 6) s _ _ after hs1 hr he

/-- Parsing the full rendered edit plan followed by arbitrary text. -/
theorem parseValue_editPlan (fuel : Nat) (p : EditPlan) (after : List Char) :
    parseValue (fuel + p.modifications.length + p.creations.length + 10)
      (renderEditPlan p ++ after)
    = some (editPlanJ p, after) := by
  have hv2 : parseValue (fuel + p.modifications.length + p.creations.length + 7)
      (' ' :: renderArr renderCreEntry p.creations ++ '\x7d' :: after)
      = some (JValue.arr (p.creations.map creEntryJ), '\x7d' :: after) :=
    parseValue_creArr (fuel + p.modifications.length) p.creations
      (' ' :: renderArr renderCreEntry p.creations ++ '\x7d' :: after) ('\x7d' :: after)
      (Or.inr (by simp only [List.cons_append]))
  have hm2 : parseMembers (fuel + p.modifications.length + p.creations.length + 8)
      (' ' :: renderJString "creations".toList
        ++ ':' :: (' ' :: renderArr renderCreEntry p.creations ++ '\x7d' :: after))
      = some ([("creations".toList, JValue.arr (p.creations.map creEntryJ))], after) := by
    refine parseMembers_last (fuel + p.modifications.length + p.creations.length + 7)
      _ "creations".toList
      (' ' :: renderArr renderCreEntry p.creations ++ '\x7d' :: after)
      (JValue.arr (p.creations.map creEntryJ)) ('\x7d' :: after) after ?_ hv2
      (skipWs_cons '\x7d' _ (by decide))
    unfold renderJString
    simp only [List.cons_append, List.append_assoc, List.singleton_append]
    rw [skipWs_space]
    exact skipWs_cons '"' _ (by decide)
  have hv1 : parseValue (fuel + p.modifications.length + p.creations.length + 8)
      (' ' :: renderArr renderModEntry p.modifications
        ++ ',' :: (' ' :: renderJString "creations".toList
          ++ ':' :: (' ' :: renderArr renderCreEntry p.creations ++ '\x7d' :: after)))
      = some (JValue.arr (p.modifications.map modEntryJ),
          ',' :: (' ' :: renderJString "creations".toList
            ++ ':' :: (' ' :: renderArr renderCreEntry p.creations ++ '\x7d' :: after))) := by
    rw [show fuel + p.modifications.length + p.creations.length + 8
        = fuel + p.creations.length + 2 + p.modifications.length + 6 from by omega]
    exact parseValue_modArr (fuel + p.creations.length + 2) p.modifications
      (' ' :: renderArr renderModEntry p.modifications
        ++ ',' :: (' ' :: renderJString "creations".toList
          ++ ':' :: (' ' :: renderArr renderCreEntry p.creations ++ '\x7d' :: after)))
      (',' :: (' ' :: renderJString "creations".toList
        ++ ':' :: (' ' :: renderArr renderCreEntry p.creations ++ '\x7d' :: after)))
      (Or.inr (by simp only [List.cons_append]))
  have hm1 : parseMembers (fuel + p.modifications.length + p.creations.length + 9)
      (renderJString "modifications".toList
        ++ ':' :: (' ' :: renderArr renderModEntry p.modifications
          ++ ',' :: (' ' :: renderJString "creations".toList
            ++ ':' :: (' ' :: renderArr renderCreEntry p.creations ++ '\x7d' :: after))))
      = some ([("modifications".toList, JValue.arr (p.modifications.map modEntryJ)),
               ("creations".toList, JValue.arr (p.creations.map creEntryJ))], after) := by
    refine parseMembers_more (fuel + p.modifications.length + p.creations.length + 8)
      _ "modifications".toList
      (' ' :: renderArr renderModEntry p.modifications
        ++ ',' :: (' ' :: renderJString "creations".toList
          ++ ':' :: (' ' :: renderArr renderCreEntry p.creations ++ '\x7d' :: after)))
      (JValue.arr (p.modifications.map modEntryJ))
      (',' :: (' ' :: renderJString "creations".toList
        ++ ':' :: (' ' :: renderArr renderCreEntry p.creations ++ '\x7d' :: after)))
      (' ' :: renderJString "creations".toList
        ++ ':' :: (' ' :: renderArr renderCreEntry p.creations ++ '\x7d' :: after))
      _ after ?_ hv1 (skipWs_cons ',' _ (by decide)) hm2
    unfold renderJString
    simp only [List.cons_append, List.append_assoc, List.singleton_append]
    exact skipWs_cons '"' _ (by decide)
  have hr1 : skipWs
      (renderJString "modifications".toList
        ++ ':' :: (' ' :: renderArr renderModEntry p.modifications
          ++ ',' :: (' ' :: renderJString "creations".toList
            ++ ':' :: (' ' :: renderArr renderCreEntry p.creations ++ '\x7d' :: after))))
      = '"' :: (escapeString "modifications".toList
        ++ '"' :: ':' :: (' ' :: renderArr renderModEntry p.modifications
          ++ ',' :: (' ' :: renderJString "creations".toList
            ++ ':' :: (' ' :: renderArr renderCreEntry p.creations ++ '\x7d' :: after)))) := by
    unfold renderJString
    simp only [List.cons_append, List.append_assoc, List.singleton_append]
    exact skipWs_cons '"' _ (by decide)
  have hs1 : skipWs (renderEditPlan p ++ after)
      = '\x7b' :: (renderJString "modifications".toList
        ++ ':' :: (' ' :: renderArr renderModEntry p.modifications
          ++ ',' :: (' ' :: renderJString "creations".toList
            ++ ':' :: (' ' :: renderArr renderCreEntry p.creations ++ '\x7d' :: after)))) := by
    unfold renderEditPlan renderJString
    simp only [List.cons_append, List.append_assoc, List.singleton_append]
    exact skipWs_cons '\x7b' _ (by decide)
  exact parseValue_obj (fuel + p.modifications.length + p.creations.length + 9)
    _ _ _ _ after hs1 hr1 hm1

theorem renderModEntry_length_pos (e : ModificationEntry) :
    1 ≤ (renderModEntry e).length := by
  unfold renderModEntry
  simp

theorem renderCreEntry_length_pos (e : CreationEntry) :
    1 ≤ (renderCreEntry e).length := by
  unfold renderCreEntry
  simp

theorem renderArrTail_length (f : α → List Char) (hf : ∀ x, 1 ≤ (f x).length) :
    ∀ l : List α, l.length + 1 ≤ (renderArrTail f l).length := by
  intro l
  induction l with
  | nil => simp [renderArrTail]
  | cons x xs ih =>
    simp only [renderArrTail, List.length_cons, List.length_append]
    have := hf x
    omega

theorem renderArr_length (f : α → List Char) (hf : ∀ x, 1 ≤ (f x).length)
    (l : List α) : l.length + 2 ≤ (renderArr f l).length := by
  cases l with
  | nil => simp [renderArr]
  | cons x xs =>
    simp only [renderArr, List.length_cons, List.length_append]
    have h1 := hf x
    have h2 := renderArrTail_length f hf xs
    omega

/-- The serialized plan is long enough that `length + 1` is enough parser
fuel. -/
theorem renderEditPlan_length (p : EditPlan) :
    p.modifications.length + p.creations.length + 9 ≤ (renderEditPlan p).length := by
  unfold renderEditPlan
  have h1 := renderArr_length renderModEntry renderModEntry_length_pos p.modifications
  have h2 := renderArr_length renderCreEntry renderCreEntry_length_pos p.creations
  simp only [List.length_cons, List.length_append, List.length_singleton]
  omega

/-- `json.loads` recovers the `JValue` of a plan from its `json.dumps`
serialization. -/
theorem jsonLoads_renderEditPlan (p : EditPlan) :
    jsonLoads (renderEditPlan p) = some (editPlanJ p) := by
  have hlen := renderEditPlan_length p
  obtain ⟨fuel, hf⟩ : ∃ fuel, (renderEditPlan p).length + 1
      = fuel + p.modifications.length + p.creations.length + 10 :=
    ⟨(renderEditPlan p).length + 1
      - (p.modifications.length + p.creations.length + 10), by omega⟩
  unfold jsonLoads
  rw [hf, ← List.append_nil (renderEditPlan p), parseValue_editPlan fuel p []]
  rfl

/-- A fence pattern (starting with a backtick) passes over a backtick-free
chunk unchanged. -/
theorem removeAll_append_free (r : List Char) :
    ∀ (xs t : List Char), '\x60' ∉ xs →
      removeAll ('\x60' :: r) (xs ++ t) = xs ++ removeAll ('\x60' :: r) t := by
  intro xs
  induction xs with
  | nil => intro t _; rfl
  | cons c xs' ih =>
    intro t hx
    have hc : c ≠ '\x60' := by
      intro h
      exact hx (h ▸ List.mem_cons_self c xs')
    have hkeep : ¬ (('\x60' :: r) ≠ [] ∧ ('\x60' :: r).isPrefixOf (c :: (xs' ++ t))) := by
      rintro ⟨-, hp⟩
      simp only [List.isPrefixOf, Bool.and_eq_true, beq_iff_eq] at hp
      exact hc hp.1.symm
    rw [List.cons_append, removeAll_cons_keep _ _ _ hkeep,
      ih t (fun h => hx (List.mem_cons_of_mem c h))]
    rfl

/-- A fence pattern leaves a backtick-free string unchanged. -/
theorem removeAll_free (r s : List Char) (hs : '\x60' ∉ s) :
    removeAll ('\x60' :: r) s = s := by
  have h := removeAll_append_free r s [] hs
  rw [List.append_nil] at h
  rw [h]
  show s ++ ([] : List Char) = s
  exact List.append_nil s

/-- `replace` removes the pattern where it occurs. -/
theorem removeAll_pat (r t : List Char) :
    removeAll ('\x60' :: r) (('\x60' :: r) ++ t) = removeAll ('\x60' :: r) t := by
  rw [List.cons_append,
    removeAll_cons_skip _ _ _ ⟨by simp, List.isPrefixOf_iff_prefix.mpr ⟨t, by simp⟩⟩]
  congr 1
  simp only [List.length_cons]
  show (('\x60' :: r) ++ t).drop ('\x60' :: r).length = t
  exact List.drop_left _ _

/-- The two fence-stripping passes on a fenced reply remove exactly the two
fence lines' backtick runs, leaving prose and the JSON body intact. -/
theorem stripFences_wrapReply (p1 p2 : List Char) (p : EditPlan)
    (h1 : '\x60' ∉ p1) (h2 : '\x60' ∉ p2) (h5 : '\x60' ∉ renderEditPlan p) :
    stripFences (wrapReply p1 p p2)
      = p1 ++ '\n' :: (renderEditPlan p ++ '\n' :: '\n' :: p2) := by
  unfold wrapReply stripFences
  have pass1 : removeAll "\x60\x60\x60json".toList
      (p1 ++ "\x60\x60\x60json\n".toList ++ renderEditPlan p ++ "\n\x60\x60\x60\n".toList ++ p2)
      = p1 ++ '\n' :: (renderEditPlan p
          ++ '\n' :: '\x60' :: '\x60' :: '\x60' :: '\n' :: p2) := by
    simp only [List.append_assoc]
    show removeAll ('\x60' :: "\x60\x60json".toList)
        (p1 ++ (('\x60' :: "\x60\x60json".toList)
          ++ (['\n'] ++ (renderEditPlan p
            ++ (['\n'] ++ ('\x60' :: ('\x60' :: ('\x60' :: (['\n'] ++ p2)))))))))
        = p1 ++ '\n' :: (renderEditPlan p
            ++ '\n' :: '\x60' :: '\x60' :: '\x60' :: '\n' :: p2)
    rw [removeAll_append_free _ p1 _ h1, removeAll_pat,
      removeAll_append_free _ ['\n'] _ (by decide),
      removeAll_append_free _ (renderEditPlan p) _ h5,
      removeAll_append_free _ ['\n'] _ (by decide),
      removeAll_cons_keep ('\x60' :: "\x60\x60json".toList) '\x60'
        ('\x60' :: ('\x60' :: (['\n'] ++ p2))) (fun h => Bool.false_ne_true h.2),
      removeAll_cons_keep ('\x60' :: "\x60\x60json".toList) '\x60'
        ('\x60' :: (['\n'] ++ p2)) (fun h => Bool.false_ne_true h.2),
      removeAll_cons_keep ('\x60' :: "\x60\x60json".toList) '\x60'
        (['\n'] ++ p2) (fun h => Bool.false_ne_true h.2),
      removeAll_append_free _ ['\n'] _ (by decide),
      removeAll_free _ p2 h2]
    rfl
  rw [pass1]
  show removeAll ('\x60' :: "\x60\x60".toList)
      (p1 ++ (['\n'] ++ (renderEditPlan p
        ++ (['\n'] ++ (('\x60' :: "\x60\x60".toList) ++ (['\n'] ++ p2))))))
      = p1 ++ '\n' :: (renderEditPlan p ++ '\n' :: '\n' :: p2)
  rw [removeAll_append_free _ p1 _ h1,
    removeAll_append_free _ ['\n'] _ (by decide),
    removeAll_append_free _ (renderEditPlan p) _ h5,
    removeAll_append_free _ ['\n'] _ (by decide),
    removeAll_pat,
    removeAll_append_free _ ['\n'] _ (by decide),
    removeAll_free _ p2 h2]
  rfl


theorem findIdx?_free_append (c : Char) :
    ∀ (a : List Char) (b : List Char) (i : Nat), c ∉ a →
      List.findIdx? (fun x => decide (x = c)) (a ++ c :: b) i = some (i + a.length) := by
  intro a
  induction a with
  | nil =>
    intro b i _
    simp [List.findIdx?_cons]
  | cons x a' ih =>
    intro b i ha
    have hx : ¬ (x = c) := by
      intro h
      exact ha (h ▸ List.mem_cons_self x a')
    rw [List.cons_append, List.findIdx?_cons]
    simp only [decide_eq_true_eq]
    rw [if_neg hx, ih b (i + 1) (fun h => ha (List.mem_cons_of_mem x h))]
    simp only [List.length_cons]
    congr 1
    omega

/-- `s.find(c)` on a string whose prefix is free of `c`. -/
theorem pyFind_append (c : Char) (a b : List Char) (ha : c ∉ a) :
    pyFind c (a ++ c :: b) = some a.length := by
  unfold pyFind
  have h := findIdx?_free_append c a b 0 ha
  simpa using h

/-- `s.rfind(c)` on a string whose suffix is free of `c`. -/
theorem pyRfind_append (c : Char) (a b : List Char) (hb : c ∉ b) :
    pyRfind c (a ++ c :: b) = some a.length := by
  unfold pyRfind
  have hrev : (a ++ c :: b).reverse = b.reverse ++ c :: a.reverse := by
    simp
  rw [hrev]
  have hb' : c ∉ b.reverse := fun h => hb (List.mem_reverse.mp h)
  have hf : (b.reverse ++ c :: a.reverse).findIdx? (· = c) = some b.reverse.length := by
    have h := findIdx?_free_append c b.reverse a.reverse 0 hb'
    simpa using h
  rw [hf]
  simp only [List.length_reverse, List.length_append, List.length_cons]
  congr 1
  omega

/-- On a fenced reply whose leading prose has no opening brace and whose
trailing prose has no closing brace (and neither has backticks), the brace
slice of `extract_json` recovers exactly the serialized plan. -/
theorem extract_json_wrapReply (p1 p2 : List Char) (p : EditPlan)
    (h1 : '\x7b' ∉ p1) (h1b : '\x60' ∉ p1)
    (h2 : '\x7d' ∉ p2) (h2b : '\x60' ∉ p2)
    (h5 : '\x60' ∉ renderEditPlan p) :
    extract_json (wrapReply p1 p p2) = some (renderEditPlan p) := by
  obtain ⟨mid, hmid⟩ : ∃ mid, renderEditPlan p = '\x7b' :: (mid ++ ['\x7d']) :=
    ⟨renderJString "modifications".toList ++ ':' :: ' '
        :: renderArr renderModEntry p.modifications
        ++ ',' :: ' ' :: renderJString "creations".toList ++ ':' :: ' '
        :: renderArr renderCreEntry p.creations,
      by unfold renderEditPlan; simp⟩
  have hstrip := stripFences_wrapReply p1 p2 p h1b h2b h5
  unfold extract_json
  rw [hstrip]
  have ha : '\x7b' ∉ (p1 ++ ['\n']) := by
    intro h
    rcases List.mem_append.mp h with h | h
    · exact h1 h
    · simp at h
  have hfind : pyFind '\x7b' (p1 ++ '\n' :: (renderEditPlan p ++ '\n' :: '\n' :: p2))
      = some (p1.length + 1) := by
    have hS : p1 ++ '\n' :: (renderEditPlan p ++ '\n' :: '\n' :: p2)
        = (p1 ++ ['\n']) ++ '\x7b' :: (mid ++ '\x7d' :: '\n' :: '\n' :: p2) := by
      rw [hmid]
      simp
    rw [hS, pyFind_append _ _ _ ha]
    simp
  have hrfind : pyRfind '\x7d' (p1 ++ '\n' :: (renderEditPlan p ++ '\n' :: '\n' :: p2))
      = some (p1.length + mid.length + 2) := by
    have hS2 : p1 ++ '\n' :: (renderEditPlan p ++ '\n' :: '\n' :: p2)
        = ((p1 ++ ['\n']) ++ '\x7b' :: mid) ++ '\x7d' :: ('\n' :: '\n' :: p2) := by
      rw [hmid]
      simp
    have hb : '\x7d' ∉ ('\n' :: '\n' :: p2) := by
      simp only [List.mem_cons]
      rintro (h | h | h)
      · exact absurd h (by decide)
      · exact absurd h (by decide)
      · exact h2 h
    rw [hS2, pyRfind_append _ _ _ hb]
    simp only [List.length_append, List.length_cons, List.length_singleton,
      List.length_nil, Option.some.injEq]
    omega
  rw [hfind, hrfind]
  show some (pySlice (p1 ++ '\n' :: (renderEditPlan p ++ '\n' :: '\n' :: p2))
        (p1.length + 1) (p1.length + mid.length + 2 + 1))
      = some (renderEditPlan p)
  unfold pySlice
  have hS3 : p1 ++ '\n' :: (renderEditPlan p ++ '\n' :: '\n' :: p2)
      = (p1 ++ ['\n']) ++ ('\x7b' :: (mid ++ '\x7d' :: '\n' :: '\n' :: p2)) := by
    rw [hmid]
    simp
  have hdrop : ((p1 ++ ['\n'])
        ++ ('\x7b' :: (mid ++ '\x7d' :: '\n' :: '\n' :: p2))).drop (p1.length + 1)
      = '\x7b' :: (mid ++ '\x7d' :: '\n' :: '\n' :: p2) := by
    rw [show p1.length + 1 = (p1 ++ ['\n']).length from by simp]
    exact List.drop_left _ _
  rw [hS3, hdrop,
    show p1.length + mid.length + 2 + 1 - (p1.length + 1) = mid.length + 1 + 1 from by omega,
    List.take_succ_cons, List.take_append, hmid]
  rfl

/-- C2 (amended): the serialize-fence-recover round trip over an
`EditPlan`, with prose that stays clear of the brace scan and the fence
scan: no `\x7b` in the leading prose, no `\x7d` in the trailing prose, and
no backtick in either prose or in the serialized plan. -/
theorem try_parse_json_roundtrip (p1 p2 : List Char) (p : EditPlan)
    (h1 : '\x7b' ∉ p1) (h1b : '\x60' ∉ p1)
    (h2 : '\x7d' ∉ p2) (h2b : '\x60' ∉ p2)
    (h5 : '\x60' ∉ renderEditPlan p) :
    try_parse_json (wrapReply p1 p p2) = Except.ok (editPlanJ p) := by
  have hne : ¬ (renderEditPlan p = []) := by
    intro h
    have hlen := renderEditPlan_length p
    rw [h] at hlen
    simp at hlen
  unfold try_parse_json
  rw [extract_json_wrapReply p1 p2 p h1 h1b h2 h2b h5]
  show (if renderEditPlan p = [] then Except.error ParseErr.noJsonFound
        else match jsonLoads (renderEditPlan p) with
          | some v => Except.ok v
          | none =>
            match jsonLoads (fix_json_fields (renderEditPlan p)) with
            | some v => Except.ok v
            | none => Except.error ParseErr.decodeError)
      = Except.ok (editPlanJ p)
  rw [if_neg hne, jsonLoads_renderEditPlan p]

/-- C2, witness: a concrete plan wrapped in fences and benign prose on both
sides round-trips to its own parse tree. -/
theorem try_parse_json_roundtrip_witness :
    try_parse_json (wrapReply "Sure, here is the plan: ".toList
        ⟨[⟨"a.txt".toList, "hello".toList⟩], [⟨"d".toList, [], true⟩]⟩
        " Done.".toList)
      = Except.ok (editPlanJ
          ⟨[⟨"a.txt".toList, "hello".toList⟩], [⟨"d".toList, [], true⟩]⟩) :=
  try_parse_json_roundtrip _ _ _ (by decide) (by decide) (by decide) (by decide)
    (by decide)

/-- C2, counterexample: prose is not arbitrary — a single stray `\x7b`
before the fence widens the brace slice, the widened candidate is not
valid JSON, the field repair cannot mend it, and recovery fails instead of
reproducing the (empty) plan. -/
theorem c2_counterexample :
    try_parse_json (wrapReply ['\x7b'] ⟨[], []⟩ [])
      = Except.error ParseErr.decodeError := by
  rfl

end Kody
